import Mathlib

/-!
# Verification of the PCF computation and transformation engine

Shallow embedding of the polynomial-continued-fraction (PCF) engine:

* `src/unifier/pcf.py` — the `PCF` class (`step`, `limit`, `inflate`,
  `deflate_all`, `compute_dynamics`) and the module-level `precision` function;
* `src/pcf_dynamical_parameters.py` — the `PCFDynamics` class
  (`CIDS`, `delta`, `errors`, `q_reds`);
* `src/unifier/utils/recurrence_transforms_utils.py` — the transform engine
  (`fold_matrix`, `as_pcf`, `as_pcf_cob`, `get_folded_pcf_limit`,
  `get_zeros`, `get_shift`, `shift_to_viable`).

Exact integers are `ℤ`, exact rationals are `ℚ`; the arbitrary-precision
(mpmath) values that the Python code manipulates are modelled by their exact
mathematical values.  Rational functions of the index symbol `n` are modelled
by `RatFunc ℚ` (sympy's `simplify`/`cancel` compute a canonical reduced
fraction, which is exactly what `RatFunc.num`/`RatFunc.denom` provide, up to
the unit normalisation making the denominator monic).
-/

namespace Unifier

/-! ## Exact 2×2 integer matrices (step matrices)

`[[p1, p2], [q1, q2]]` is `⟨p1, p2, q1, q2⟩`. -/

structure M2 where
  p1 : ℤ
  p2 : ℤ
  q1 : ℤ
  q2 : ℤ
deriving DecidableEq, Repr

def M2.mul (x y : M2) : M2 :=
  ⟨x.p1 * y.p1 + x.p2 * y.q1, x.p1 * y.p2 + x.p2 * y.q2,
   x.q1 * y.p1 + x.q2 * y.q1, x.q1 * y.p2 + x.q2 * y.q2⟩

instance : Mul M2 := ⟨M2.mul⟩

/-! ## The recurrence evaluator (`PCF.step`, `src/unifier/pcf.py` lines 120–147)

A PCF enters `step` through its integer polynomials `a_compute`, `b_compute`;
they are modelled as integer-valued functions of the index. -/

structure ZPCF where
  a : ℤ → ℤ
  b : ℤ → ℤ

/-- The one-step recurrence matrix `[[0, b(k)], [1, a(k)]]` (`PCF.CM`,
`src/unifier/pcf.py` line 71, instantiated at index `k`). -/
def ZPCF.CM (p : ZPCF) (k : ℤ) : M2 := ⟨0, p.b k, 1, p.a k⟩

/-- The standard initial conditions `[[1, a(0)], [0, 1]]` (`PCF.A`,
`src/unifier/pcf.py` line 79; also the default `initial_conditions`
of `PCF.step`, line 135). -/
def ZPCF.A (p : ZPCF) : M2 := ⟨1, p.a 0, 0, 1⟩

/-- Modelled from the spec: the exact-integer step-matrix product that
`PCF.step` delegates to the vendored LIReC evaluator
(`src/unifier/utils/LIReC_utils/pcf.py`, not present under `src/`).
Per §4.2 of the spec, `Step(depth, initialConditions)` is the product of
`depth` recurrence-matrix substitutions left-multiplied by
`initialConditions`; resuming from a checkpoint at depth `d0` continues the
product at index `d0 + 1` ("that depth implicitly absorbed by the caller",
as `pcf_compute_to` does in `src/pcf_validation_test.py`).
`stepFrom p d0 d1 init = init * CM(d0+1) * ⋯ * CM(d1)`. -/
def ZPCF.stepFrom (p : ZPCF) (d0 d1 : ℕ) (init : M2) : M2 :=
  (List.range (d1 - d0)).foldl
    (fun m (i : ℕ) => m * p.CM ((d0 : ℤ) + 1 + (i : ℤ))) init

/-- `PCF.step` with explicit initial conditions: the full product
`init * CM(1) * ⋯ * CM(depth)`. -/
def ZPCF.step (p : ZPCF) (depth : ℕ) (init : M2) : M2 :=
  p.stepFrom 0 depth init

/-- `PCF.step` with the standard initial conditions
(`initial_conditions=None` branch, `src/unifier/pcf.py` line 135). -/
def ZPCF.stepStd (p : ZPCF) (depth : ℕ) : M2 :=
  p.step depth p.A

theorem stepFrom_self (p : ZPCF) (d : ℕ) (init : M2) :
    p.stepFrom d d init = init := by
  simp [ZPCF.stepFrom]

theorem stepFrom_succ (p : ZPCF) {d0 d1 : ℕ} (h : d0 ≤ d1) (init : M2) :
    p.stepFrom d0 (d1 + 1) init =
      (p.stepFrom d0 d1 init) * p.CM ((d1 : ℤ) + 1) := by
  have hr : d1 + 1 - d0 = (d1 - d0) + 1 := by omega
  rw [ZPCF.stepFrom, hr, List.range_succ, List.foldl_append]
  simp only [List.foldl_cons, List.foldl_nil, ZPCF.stepFrom]
  have harg : (d0 : ℤ) + 1 + ((d1 - d0 : ℕ) : ℤ) = (d1 : ℤ) + 1 := by omega
  rw [harg]

/-- Resuming the step product from the checkpoint matrix at depth `d0`
reproduces the direct product to `d1`. -/
theorem stepFrom_step (p : ZPCF) {d0 d1 : ℕ} (h : d0 ≤ d1) (init : M2) :
    p.stepFrom d0 d1 (p.step d0 init) = p.step d1 init := by
  induction d1, h using Nat.le_induction with
  | base => exact stepFrom_self p d0 _
  | succ d1 h ih =>
      rw [stepFrom_succ p h, ih]
      simp only [ZPCF.step]
      rw [stepFrom_succ p (Nat.zero_le d1)]

/-! ## Precision (`precision`, `src/unifier/pcf.py` lines 289–307)

The source computes `digits = -(re(log(num, base) - log(den, base)))` with
mpmath and returns `int(floor(digits))`; for a negative argument mpmath's
`log` returns `log|x| + iπ`, so the real part is `log|num| - log|den|` and
the returned integer is `⌊log_base (|den| / |num|)⌋`, which is exactly
`Int.log base |den / num|` (the mpmath floating-point evaluation is modelled
by the exact value). -/

def precision (m : M2) (base : ℕ) : ℤ :=
  let num := m.p2 * m.q1 - m.q2 * m.p1
  let den := m.q1 * m.q2
  if den = 0 then 0
  else if num = 0 then 100
  else Int.log base |(den : ℚ) / (num : ℚ)|

/-- `precision` with the default base 10 (`base: int = 10`). -/
def precisionD (m : M2) : ℤ := precision m 10

theorem precision_of_ne (m : M2) (base : ℕ) (hd : m.q1 * m.q2 ≠ 0)
    (hn : m.p2 * m.q1 - m.q2 * m.p1 ≠ 0) :
    precision m base =
      Int.log base |((m.q1 * m.q2 : ℤ) : ℚ) / ((m.p2 * m.q1 - m.q2 * m.p1 : ℤ) : ℚ)| := by
  simp only [precision]
  rw [if_neg hd, if_neg hn]

theorem intLog_ratCast {b : ℕ} (hb : 1 < b) {q : ℚ} (hq : 0 < q) :
    Int.log b (q : ℝ) = Int.log b q := by
  have hq' : (0 : ℝ) < (q : ℝ) := by exact_mod_cast hq
  apply le_antisymm
  · rw [← Int.zpow_le_iff_le_log hb hq, ← Rat.cast_le (K := ℝ)]
    push_cast
    exact Int.zpow_log_le_self hb hq'
  · rw [← Int.zpow_le_iff_le_log hb hq']
    have h2 := Int.zpow_log_le_self hb hq
    rw [← Rat.cast_le (K := ℝ)] at h2
    push_cast at h2
    exact h2

/-- The PCF `a(n) = 2n + 1`, `b(n) = n²` of `test_pcf_compute_to`
(`src/pcf_validation_test.py` line 13), through its integer polynomials. -/
def pcfValidation : ZPCF := ⟨fun k => 2 * k + 1, fun k => k ^ 2⟩

/-- C1.  **Checkpoint resumption.**  For every PCF and all depths
`1 ≤ d0 < d1`, the step matrix at `d1` computed directly with the standard
initial matrix equals the step matrix obtained by resuming from the
checkpoint matrix at depth `d0` for the remaining `d1 - d0` steps, as an
exact integer matrix; in particular for `a(n) = 2n + 1`, `b(n) = n²` the
depth-1/2/3 checkpoints resumed to depth 10 all give
`[[3958113600, 100370793600], [3108695040, 78831037440]]`, and resuming the
depth-1000 checkpoint to depth 3500 equals direct computation to depth
3500. -/
theorem C1_checkpoint_resumption :
    (∀ (p : ZPCF) (d0 d1 : ℕ), 1 ≤ d0 → d0 < d1 →
      p.stepFrom d0 d1 (p.stepStd d0) = p.stepStd d1) ∧
    pcfValidation.stepStd 1 = ⟨1, 4, 1, 3⟩ ∧
    pcfValidation.stepStd 2 = ⟨4, 24, 3, 19⟩ ∧
    pcfValidation.stepStd 3 = ⟨24, 204, 19, 160⟩ ∧
    pcfValidation.stepFrom 1 10 ⟨1, 4, 1, 3⟩ =
      ⟨3958113600, 100370793600, 3108695040, 78831037440⟩ ∧
    pcfValidation.stepFrom 2 10 ⟨4, 24, 3, 19⟩ =
      ⟨3958113600, 100370793600, 3108695040, 78831037440⟩ ∧
    pcfValidation.stepFrom 3 10 ⟨24, 204, 19, 160⟩ =
      ⟨3958113600, 100370793600, 3108695040, 78831037440⟩ ∧
    pcfValidation.stepStd 10 =
      ⟨3958113600, 100370793600, 3108695040, 78831037440⟩ ∧
    pcfValidation.stepFrom 1000 3500 (pcfValidation.stepStd 1000) =
      pcfValidation.stepStd 3500 := by
  refine ⟨fun p d0 d1 _ h01 => stepFrom_step p (le_of_lt h01) p.A,
    ?_, ?_, ?_, ?_, ?_, ?_, ?_,
    stepFrom_step pcfValidation (by norm_num) pcfValidation.A⟩
  all_goals decide

/-- C2.  **Precision from a step matrix.**  For a step matrix
`[[p1, p2], [q1, q2]]` and base ≥ 2: the result is 0 when `q1·q2 = 0`, the
large sentinel 100 when the cross term `p2·q1 − q2·p1` is 0 but `q1·q2` is
not, and otherwise `⌊-log_base |cross/denominator|⌋` exactly. -/
theorem C2_precision_digits (m : M2) (base : ℕ) (hbase : 2 ≤ base) :
    (m.q1 * m.q2 = 0 → precision m base = 0) ∧
    (m.q1 * m.q2 ≠ 0 → m.p2 * m.q1 - m.q2 * m.p1 = 0 → precision m base = 100) ∧
    (m.q1 * m.q2 ≠ 0 → m.p2 * m.q1 - m.q2 * m.p1 ≠ 0 →
      precision m base =
        ⌊-Real.logb base |((m.p2 * m.q1 - m.q2 * m.p1 : ℤ) : ℝ) /
            ((m.q1 * m.q2 : ℤ) : ℝ)|⌋) := by
  refine ⟨fun h => by simp [precision, h], fun hd hn => by simp [precision, hd, hn], ?_⟩
  intro hd hn
  have hb1 : 1 < base := lt_of_lt_of_le one_lt_two hbase
  set num : ℤ := m.p2 * m.q1 - m.q2 * m.p1 with hnum
  set den : ℤ := m.q1 * m.q2 with hden
  have hp : precision m base = Int.log base |(den : ℚ) / (num : ℚ)| := by
    simp only [precision, hnum, hden]
    rw [if_neg hd, if_neg hn]
  rw [hp]
  have hnR : ((num : ℚ) : ℝ) ≠ 0 := by exact_mod_cast hn
  have hdR : ((den : ℚ) : ℝ) ≠ 0 := by exact_mod_cast hd
  have habs : (0 : ℚ) < |(den : ℚ) / (num : ℚ)| := by
    apply abs_pos.mpr
    exact div_ne_zero (by exact_mod_cast hd) (by exact_mod_cast hn)
  rw [← intLog_ratCast hb1 habs]
  have hcast : ((|(den : ℚ) / (num : ℚ)| : ℚ) : ℝ) =
      |((den : ℤ) : ℝ) / ((num : ℤ) : ℝ)| := by
    push_cast
    rfl
  rw [hcast, ← Real.floor_logb_natCast (abs_nonneg _)]
  congr 1
  rw [← Real.logb_inv, ← abs_inv, inv_div]

/-- Witness for C2 at the concrete step matrix `[[2, 3], [1, 5]]` and
base 10. -/
theorem C2_precision_digits_witness :
    ((⟨2, 3, 1, 5⟩ : M2).q1 * (⟨2, 3, 1, 5⟩ : M2).q2 = 0 →
      precision ⟨2, 3, 1, 5⟩ 10 = 0) ∧
    ((⟨2, 3, 1, 5⟩ : M2).q1 * (⟨2, 3, 1, 5⟩ : M2).q2 ≠ 0 →
      (⟨2, 3, 1, 5⟩ : M2).p2 * (⟨2, 3, 1, 5⟩ : M2).q1 -
        (⟨2, 3, 1, 5⟩ : M2).q2 * (⟨2, 3, 1, 5⟩ : M2).p1 = 0 →
      precision ⟨2, 3, 1, 5⟩ 10 = 100) ∧
    ((⟨2, 3, 1, 5⟩ : M2).q1 * (⟨2, 3, 1, 5⟩ : M2).q2 ≠ 0 →
      (⟨2, 3, 1, 5⟩ : M2).p2 * (⟨2, 3, 1, 5⟩ : M2).q1 -
        (⟨2, 3, 1, 5⟩ : M2).q2 * (⟨2, 3, 1, 5⟩ : M2).p1 ≠ 0 →
      precision ⟨2, 3, 1, 5⟩ 10 =
        ⌊-Real.logb 10 |(((⟨2, 3, 1, 5⟩ : M2).p2 * (⟨2, 3, 1, 5⟩ : M2).q1 -
            (⟨2, 3, 1, 5⟩ : M2).q2 * (⟨2, 3, 1, 5⟩ : M2).p1 : ℤ) : ℝ) /
            (((⟨2, 3, 1, 5⟩ : M2).q1 * (⟨2, 3, 1, 5⟩ : M2).q2 : ℤ) : ℝ)|⌋) :=
  C2_precision_digits ⟨2, 3, 1, 5⟩ 10 (by norm_num)

/-- The PCF `a(n) = 1`, `b(n) = 10⁶` of C10. -/
def pcfMillion : ZPCF := ⟨fun _ => 1, fun _ => 1000000⟩

/-- The working digit count that `PCF.limit` uses when no `prec` argument is
supplied: `prec = precision(step_mat)` with the default base 10
(`src/unifier/pcf.py` lines 165–167), the value then passed to the
arbitrary-precision context `mp(precision=prec)` (line 174). -/
def limitPrec (p : ZPCF) (depth : ℕ) (prec : Option ℤ) : ℤ :=
  match prec with
  | some pr => pr
  | none => precisionD (p.stepStd depth)

/-- C10.  **Precision is not clamped below zero.**  The step matrix
`[[1, 1000001], [1, 1]]`, reached at depth 1 by the PCF with `a = 1` and
`b = 10⁶`, has nonzero denominator product and cross term, yet `precision`
returns the negative value −6, and `limit` without a `prec` argument uses
exactly that negative value as its working digit count. -/
theorem C10_negative_precision :
    pcfMillion.stepStd 1 = ⟨1, 1000001, 1, 1⟩ ∧
    (M2.q1 ⟨1, 1000001, 1, 1⟩ * M2.q2 ⟨1, 1000001, 1, 1⟩ ≠ 0) ∧
    (M2.p2 ⟨1, 1000001, 1, 1⟩ * M2.q1 ⟨1, 1000001, 1, 1⟩ -
      M2.q2 ⟨1, 1000001, 1, 1⟩ * M2.p1 ⟨1, 1000001, 1, 1⟩ ≠ 0) ∧
    precisionD ⟨1, 1000001, 1, 1⟩ = -6 ∧
    limitPrec pcfMillion 1 none = -6 ∧ (-6 : ℤ) < 0 := by
  have hkey : precision ⟨1, 1000001, 1, 1⟩ 10 = -6 := by
    have h0 := precision_of_ne ⟨1, 1000001, 1, 1⟩ 10 (by decide) (by decide)
    have harg : |((M2.q1 ⟨1, 1000001, 1, 1⟩ * M2.q2 ⟨1, 1000001, 1, 1⟩ : ℤ) : ℚ) /
        ((M2.p2 ⟨1, 1000001, 1, 1⟩ * M2.q1 ⟨1, 1000001, 1, 1⟩ -
          M2.q2 ⟨1, 1000001, 1, 1⟩ * M2.p1 ⟨1, 1000001, 1, 1⟩ : ℤ) : ℚ)| =
        (((10 : ℕ) : ℚ) ^ (-6 : ℤ)) := by
      norm_num
    rw [harg] at h0
    rw [h0]
    refine Int.log_zpow ?_ (-6)
    norm_num
  have h1 : pcfMillion.stepStd 1 = ⟨1, 1000001, 1, 1⟩ := by decide
  refine ⟨by decide, by decide, by decide, hkey, ?_, by decide⟩
  show precisionD (pcfMillion.stepStd 1) = -6
  rw [h1]
  exact hkey

/-! ## The `PCFDynamics.delta` retry loop
(`src/pcf_dynamical_parameters.py` lines 69–87)

The inner computation `self.pcf.subs({n: n + shift}).delta(depth +
self.CIDS(), limit=limit)` is abstracted as an oracle
`f : ℤ → ℤ → DynOut` whose first argument is the cumulative
index-variable shift applied to the PCF and whose second argument is the
depth passed to the external `delta` routine; `.err` models the inner
computation raising, `.val ⊤` models `mm.mpf('+inf')`, and a finite rational
models any finite result. -/

/-- `CONVERGENT_INDEX_DEFINIION_SHIFT` (`PCFDynamics.CIDS`,
`src/pcf_dynamical_parameters.py` lines 37–39). -/
def CIDS : ℤ := 2

/-- Outcome of one call to an inner dynamical computation: an exception
(`err`) or a value (`val`), where the value `⊤` models `+inf`. -/
inductive DynOut where
  | err : DynOut
  | val : WithTop ℚ → DynOut
deriving DecidableEq, Repr

/-- The while-loop of `PCFDynamics.delta`:
`result = inf; shift = 0; while result == inf: if shift > max_shift: break;
result = f(shift, depth + CIDS); shift += shift_step; return result`.
`fuel` counts remaining loop iterations; `none` means the loop is still
running after `fuel` iterations. -/
def deltaLoop (f : ℤ → ℤ → DynOut)
    (depth shiftStep maxShift : ℤ) :
    ℕ → WithTop ℚ → ℤ → Option DynOut
  | 0, _, _ => none
  | fuel + 1, result, shift =>
    if result ≠ ⊤ then some (.val result)
    else if maxShift < shift then some (.val result)
    else
      match f shift (depth + CIDS) with
      | .err => some .err
      | .val v => deltaLoop f depth shiftStep maxShift fuel v (shift + shiftStep)

/-- `PCFDynamics.delta(depth, limit, shift_step, max_shift)`:
`check_positive(depth)` raises for `depth < 1` (modelled as `.err`),
then the retry loop runs from `result = +inf`, `shift = 0`. -/
def delta (f : ℤ → ℤ → DynOut)
    (depth shiftStep maxShift : ℤ) (fuel : ℕ) :
    Option DynOut :=
  if depth < 1 then some .err
  else deltaLoop f depth shiftStep maxShift fuel ⊤ 0

/-- The reading of C5 — "retries the same computation at depth increased by
shiftStep" — as a definition: the oracle is called with an unshifted PCF
(first argument 0) and the cumulative shift added to the depth argument. -/
def deltaLoopSpecReading (f : ℤ → ℤ → DynOut)
    (depth shiftStep maxShift : ℤ) :
    ℕ → WithTop ℚ → ℤ → Option DynOut
  | 0, _, _ => none
  | fuel + 1, result, shift =>
    if result ≠ ⊤ then some (.val result)
    else if maxShift < shift then some (.val result)
    else
      match f 0 (depth + CIDS + shift) with
      | .err => some .err
      | .val v =>
          deltaLoopSpecReading f depth shiftStep maxShift fuel v (shift + shiftStep)

/-- C5's reading of `PCFDynamics.delta`. -/
def deltaSpecReading (f : ℤ → ℤ → DynOut)
    (depth shiftStep maxShift : ℤ) (fuel : ℕ) :
    Option DynOut :=
  if depth < 1 then some .err
  else deltaLoopSpecReading f depth shiftStep maxShift fuel ⊤ 0

/-- An oracle (an inner irrationality-measure computation) that yields `+inf`
on the unshifted PCF at every depth and the finite value 7 on every shifted
PCF. -/
def deltaOracleEx : ℤ → ℤ → DynOut :=
  fun s _ => .val (if s = 0 then ⊤ else ((7 : ℚ) : WithTop ℚ))

/-- Counterexample to C5 at `depth = 1`, `shift_step = 5`, `max_shift = 10`
(the source defaults): the code retries with the PCF's index variable
shifted, not at an increased depth, so with `deltaOracleEx` it finds the
finite value 7 on the first retry, while under the claim's reading every
retry recomputes the unshifted PCF (at increased depth) and the loop ends
with `+inf`. -/
theorem C5_depth_shift_counterexample :
    delta deltaOracleEx 1 5 10 20 = some (.val ((7 : ℚ) : WithTop ℚ)) ∧
    deltaSpecReading deltaOracleEx 1 5 10 20 = some (.val (⊤ : WithTop ℚ)) ∧
    ((7 : ℚ) : WithTop ℚ) ≠ (⊤ : WithTop ℚ) := by
  decide

/-- A pure inner computation (one that never raises). -/
def pureOracle (g : ℤ → ℤ → WithTop ℚ) : ℤ → ℤ → DynOut :=
  fun s d => .val (g s d)

theorem deltaLoop_pure_char (g : ℤ → ℤ → WithTop ℚ)
    (depth shiftStep maxShift : ℤ) (hstep : 1 ≤ shiftStep) :
    ∀ (fuel : ℕ) (i : ℕ), (maxShift - (i : ℤ) * shiftStep).toNat + 2 ≤ fuel →
    ∃ r, deltaLoop (pureOracle g) depth shiftStep maxShift fuel ⊤
        ((i : ℤ) * shiftStep) = some (.val r) ∧
      ((∃ k : ℕ, i ≤ k ∧ (k : ℤ) * shiftStep ≤ maxShift ∧
          (∀ j : ℕ, i ≤ j → j < k →
            g ((j : ℤ) * shiftStep) (depth + CIDS) = ⊤) ∧
          g ((k : ℤ) * shiftStep) (depth + CIDS) ≠ ⊤ ∧
          r = g ((k : ℤ) * shiftStep) (depth + CIDS)) ∨
        (r = ⊤ ∧ ∀ k : ℕ, i ≤ k → (k : ℤ) * shiftStep ≤ maxShift →
          g ((k : ℤ) * shiftStep) (depth + CIDS) = ⊤)) := by
  intro fuel
  induction fuel with
  | zero => intro i hf; omega
  | succ fuel ih =>
      intro i hf
      rw [deltaLoop]
      simp only [ne_eq, not_true_eq_false, if_false]
      by_cases hsh : maxShift < (i : ℤ) * shiftStep
      · rw [if_pos hsh]
        refine ⟨⊤, rfl, Or.inr ⟨rfl, fun k hik hk => absurd hk (not_le.mpr ?_)⟩⟩
        calc maxShift < (i : ℤ) * shiftStep := hsh
          _ ≤ (k : ℤ) * shiftStep := by
              have hik' : (i : ℤ) ≤ (k : ℤ) := by exact_mod_cast hik
              exact mul_le_mul_of_nonneg_right hik' (by linarith)
      · rw [if_neg hsh]
        show ∃ r, deltaLoop (pureOracle g) depth shiftStep maxShift fuel
            (g ((i : ℤ) * shiftStep) (depth + CIDS))
            ((i : ℤ) * shiftStep + shiftStep) = some (.val r) ∧ _
        by_cases hv : g ((i : ℤ) * shiftStep) (depth + CIDS) = ⊤
        · rw [hv]
          by_cases hnx : maxShift < (i : ℤ) * shiftStep + shiftStep
          · obtain ⟨fuel', rfl⟩ : ∃ fuel', fuel = fuel' + 1 := ⟨fuel - 1, by omega⟩
            rw [deltaLoop]
            simp only [ne_eq, not_true_eq_false, if_false, if_pos hnx]
            refine ⟨⊤, rfl, Or.inr ⟨rfl, fun k hik hkb => ?_⟩⟩
            rcases Nat.eq_or_lt_of_le hik with heq | hlt
            · rw [← heq]; exact hv
            · exfalso
              have hk1 : ((i + 1 : ℕ) : ℤ) * shiftStep ≤ (k : ℤ) * shiftStep := by
                have : ((i + 1 : ℕ) : ℤ) ≤ (k : ℤ) := by exact_mod_cast hlt
                exact mul_le_mul_of_nonneg_right this (by linarith)
              have : ((i + 1 : ℕ) : ℤ) * shiftStep =
                  (i : ℤ) * shiftStep + shiftStep := by push_cast; ring
              omega
          · have hnext : (i : ℤ) * shiftStep + shiftStep =
                ((i + 1 : ℕ) : ℤ) * shiftStep := by push_cast; ring
            rw [hnext]
            obtain ⟨r, hr, hchar⟩ := ih (i + 1) (by rw [← hnext]; omega)
            refine ⟨r, hr, ?_⟩
            rcases hchar with ⟨k, hik, hkb, hprev, hne, hrv⟩ | ⟨hrt, hall⟩
            · refine Or.inl ⟨k, by omega, hkb, fun j hij hjk => ?_, hne, hrv⟩
              rcases Nat.eq_or_lt_of_le hij with heq | hlt
              · rw [← heq]; exact hv
              · exact hprev j hlt hjk
            · refine Or.inr ⟨hrt, fun k hik hkb => ?_⟩
              rcases Nat.eq_or_lt_of_le hik with heq | hlt
              · rw [← heq]; exact hv
              · exact hall k hlt hkb
        · obtain ⟨fuel', rfl⟩ : ∃ fuel', fuel = fuel' + 1 := ⟨fuel - 1, by omega⟩
          rw [deltaLoop]
          rw [if_pos ?_]
          · exact ⟨g ((i : ℤ) * shiftStep) (depth + CIDS), rfl,
              Or.inl ⟨i, le_refl i, not_lt.mp hsh, fun j hij hjk => absurd hjk (by omega),
                hv, rfl⟩⟩
          · simpa using hv

/-- C5 (amended).  **The delta retry loop shifts the PCF's index variable,
not the depth.**  For every depth ≥ 1, a positive `shift_step` and enough
fuel, `PCFDynamics.delta` with a pure inner computation terminates with a
result `r` that is either the first non-`+inf` value of the inner
computation on the PCF shifted by `k·shift_step` (for the least such `k`
with cumulative shift still ≤ `max_shift`), all evaluated at the **same**
depth argument `depth + CIDS`, or `+inf` if every retry with cumulative
shift ≤ `max_shift` yields `+inf`. -/
theorem C5_delta_retries_by_index_shift (g : ℤ → ℤ → WithTop ℚ)
    (depth shiftStep maxShift : ℤ) (fuel : ℕ)
    (hdepth : 1 ≤ depth) (hstep : 1 ≤ shiftStep)
    (hfuel : maxShift.toNat + 2 ≤ fuel) :
    ∃ r : WithTop ℚ,
      delta (pureOracle g) depth shiftStep maxShift fuel = some (.val r) ∧
      ((∃ k : ℕ, (k : ℤ) * shiftStep ≤ maxShift ∧
          (∀ j : ℕ, j < k → g ((j : ℤ) * shiftStep) (depth + CIDS) = ⊤) ∧
          g ((k : ℤ) * shiftStep) (depth + CIDS) ≠ ⊤ ∧
          r = g ((k : ℤ) * shiftStep) (depth + CIDS)) ∨
        (r = ⊤ ∧ ∀ k : ℕ, (k : ℤ) * shiftStep ≤ maxShift →
          g ((k : ℤ) * shiftStep) (depth + CIDS) = ⊤)) := by
  have h0 : ((0 : ℕ) : ℤ) * shiftStep = 0 := by simp
  obtain ⟨r, hr, hchar⟩ := deltaLoop_pure_char g depth shiftStep maxShift hstep fuel 0
    (by rw [h0]; omega)
  rw [h0] at hr
  refine ⟨r, ?_, ?_⟩
  · rw [delta, if_neg (by omega)]
    exact hr
  · rcases hchar with ⟨k, _, hkb, hprev, hne, hrv⟩ | ⟨hrt, hall⟩
    · exact Or.inl ⟨k, hkb, fun j hjk => hprev j (Nat.zero_le j) hjk, hne, hrv⟩
    · exact Or.inr ⟨hrt, fun k hkb => hall k (Nat.zero_le k) hkb⟩

/-- Witness for C5 (amended) with the oracle returning 7 on every call,
at `depth = 1`, `shift_step = 5`, `max_shift = 10`, fuel 12. -/
theorem C5_delta_retries_by_index_shift_witness :
    ∃ r : WithTop ℚ,
      delta (pureOracle fun _ _ => ((7 : ℚ) : WithTop ℚ)) 1 5 10 12 = some (.val r) ∧
      ((∃ k : ℕ, (k : ℤ) * 5 ≤ 10 ∧
          (∀ j : ℕ, j < k →
            (fun (_ : ℤ) (_ : ℤ) => ((7 : ℚ) : WithTop ℚ)) ((j : ℤ) * 5) (1 + CIDS) = ⊤) ∧
          (fun (_ : ℤ) (_ : ℤ) => ((7 : ℚ) : WithTop ℚ)) ((k : ℤ) * 5) (1 + CIDS) ≠ ⊤ ∧
          r = (fun (_ : ℤ) (_ : ℤ) => ((7 : ℚ) : WithTop ℚ)) ((k : ℤ) * 5) (1 + CIDS)) ∨
        (r = ⊤ ∧ ∀ k : ℕ, (k : ℤ) * 5 ≤ 10 →
          (fun (_ : ℤ) (_ : ℤ) => ((7 : ℚ) : WithTop ℚ)) ((k : ℤ) * 5) (1 + CIDS) = ⊤)) :=
  C5_delta_retries_by_index_shift (fun _ _ => ((7 : ℚ) : WithTop ℚ)) 1 5 10 12
    (by norm_num) (by norm_num) (by decide)

/-! ## `PCF.compute_dynamics` (`src/unifier/pcf.py` lines 233–280)

The two retry loops.  The inner computations
`round(float(self.delta(depth)), 5)` and
`round(float(self.convergence_rate(depth)), 5)` are abstracted as oracles
`h : ℤ → DynOut` of the depth. -/

/-- The delta retry loop of `compute_dynamics` (lines 251–264):
`delta = inf; i = 0; success = False;`
`while (delta == inf or not success) and i < max_iters:`
`  try: delta = h(depth); if delta != inf: success = True`
`  except: success = False`
`  depth += depth_shift; i += 1`.
The fuel is the remaining iteration budget `max_iters - i`; the result is
the final `delta` together with the number of iterations executed. -/
def cdDeltaGo (h : ℤ → DynOut) (depthShift : ℤ) :
    ℕ → WithTop ℚ → Bool → ℤ → WithTop ℚ × ℕ
  | 0, d, _, _ => (d, 0)
  | fuel + 1, d, success, depth =>
    if d = ⊤ ∨ success = false then
      match h depth with
      | .val v =>
          let out := cdDeltaGo h depthShift fuel v
            (if v ≠ ⊤ then true else success) (depth + depthShift)
          (out.1, out.2 + 1)
      | .err =>
          let out := cdDeltaGo h depthShift fuel d false (depth + depthShift)
          (out.1, out.2 + 1)
    else (d, 0)

/-- The delta phase of `compute_dynamics`: loop from `delta = +inf`,
`success = False`, `i = 0`. -/
def computeDynamicsDelta (h : ℤ → DynOut) (depth maxIters depthShift : ℤ) :
    WithTop ℚ × ℕ :=
  cdDeltaGo h depthShift maxIters.toNat ⊤ false depth

/-- The convergence-rate retry loop of `compute_dynamics` (lines 267–278):
`convrate = 0; i = 0; success = False;`
`while not success and i < max_iters:`
`  try: convrate = h(depth); success = True`
`  except: pass`
`  depth += depth_shift; i += 1`. -/
def cdConvGo (h : ℤ → DynOut) (depthShift : ℤ) :
    ℕ → WithTop ℚ → Bool → ℤ → WithTop ℚ × ℕ
  | 0, c, _, _ => (c, 0)
  | fuel + 1, c, success, depth =>
    if success = false then
      match h depth with
      | .val v =>
          let out := cdConvGo h depthShift fuel v true (depth + depthShift)
          (out.1, out.2 + 1)
      | .err =>
          let out := cdConvGo h depthShift fuel c false (depth + depthShift)
          (out.1, out.2 + 1)
    else (c, 0)

/-- The convergence-rate phase of `compute_dynamics`. -/
def computeDynamicsConv (h : ℤ → DynOut) (depth maxIters depthShift : ℤ) :
    WithTop ℚ × ℕ :=
  cdConvGo h depthShift maxIters.toNat ((0 : ℚ) : WithTop ℚ) false depth

theorem cdDeltaGo_count_le (h : ℤ → DynOut) (depthShift : ℤ) :
    ∀ (fuel : ℕ) (d : WithTop ℚ) (success : Bool) (depth : ℤ),
      (cdDeltaGo h depthShift fuel d success depth).2 ≤ fuel := by
  intro fuel
  induction fuel with
  | zero => intro d success depth; rw [cdDeltaGo]
  | succ fuel ih =>
      intro d success depth
      rw [cdDeltaGo]
      by_cases hc : d = ⊤ ∨ success = false
      · rw [if_pos hc]
        cases hfv : h depth with
        | val v => simpa using Nat.succ_le_succ (ih v _ (depth + depthShift))
        | err => simpa using Nat.succ_le_succ (ih d false (depth + depthShift))
      · rw [if_neg hc]
        exact Nat.zero_le _
theorem cdConvGo_count_le (h : ℤ → DynOut) (depthShift : ℤ) :
    ∀ (fuel : ℕ) (c : WithTop ℚ) (success : Bool) (depth : ℤ),
      (cdConvGo h depthShift fuel c success depth).2 ≤ fuel := by
  intro fuel
  induction fuel with
  | zero => intro c success depth; rw [cdConvGo]
  | succ fuel ih =>
      intro c success depth
      rw [cdConvGo]
      by_cases hc : success = false
      · rw [if_pos hc]
        cases hfv : h depth with
        | val v => simpa using Nat.succ_le_succ (ih v true (depth + depthShift))
        | err => simpa using Nat.succ_le_succ (ih c false (depth + depthShift))
      · rw [if_neg hc]
        exact Nat.zero_le _

theorem deltaLoop_isSome (f : ℤ → ℤ → DynOut) (depth shiftStep maxShift : ℤ)
    (hstep : 1 ≤ shiftStep) :
    ∀ (fuel : ℕ) (r : WithTop ℚ) (s : ℤ), (maxShift - s).toNat + 2 ≤ fuel →
      (deltaLoop f depth shiftStep maxShift fuel r s).isSome := by
  intro fuel
  induction fuel with
  | zero => intro r s hf; omega
  | succ fuel ih =>
      intro r s hf
      rw [deltaLoop]
      by_cases hr : r = ⊤
      · simp only [hr, ne_eq, not_true_eq_false, if_false]
        by_cases hsh : maxShift < s
        · rw [if_pos hsh]; rfl
        · rw [if_neg hsh]
          cases hfv : f s (depth + CIDS) with
          | err => rfl
          | val v =>
              by_cases hnx : maxShift < s + shiftStep
              · obtain ⟨fuel', rfl⟩ : ∃ fuel', fuel = fuel' + 1 := ⟨fuel - 1, by omega⟩
                show (deltaLoop f depth shiftStep maxShift (fuel' + 1) v
                  (s + shiftStep)).isSome
                rw [deltaLoop]
                by_cases hv : v = ⊤
                · simp only [hv, ne_eq, not_true_eq_false, if_false, if_pos hnx]
                  rfl
                · rw [if_pos (by simpa using hv)]
                  rfl
              · exact ih v (s + shiftStep) (by omega)
      · rw [if_pos (by simpa using hr)]
        rfl

/-- An inner delta computation that yields `+inf` on every call. -/
def deltaOracleInf : ℤ → ℤ → DynOut := fun _ _ => .val ⊤

theorem deltaLoop_inf_zero_step :
    ∀ fuel : ℕ, deltaLoop deltaOracleInf 1 0 10 fuel ⊤ 0 = none := by
  intro fuel
  induction fuel with
  | zero => rfl
  | succ fuel ih =>
      rw [deltaLoop]
      simp only [ne_eq, not_true_eq_false, if_false]
      rw [if_neg (by norm_num)]
      show deltaLoop deltaOracleInf 1 0 10 fuel ⊤ (0 + 0) = none
      rw [show ((0 : ℤ) + 0) = 0 by norm_num]
      exact ih

/-- Counterexample to C9 at `shift_step = 0` (with `depth = 1`,
`max_shift = 10` and the inner computation constantly `+inf`): the delta
retry loop of `PCFDynamics.delta` never terminates — it is still running
after any number of iterations — while with the default `shift_step = 5`
the same loop exits within 5 iterations. -/
theorem C9_zero_shift_step_counterexample :
    (∀ fuel : ℕ, delta deltaOracleInf 1 0 10 fuel = none) ∧
    (delta deltaOracleInf 1 5 10 5).isSome := by
  constructor
  · intro fuel
    rw [delta, if_neg (by norm_num)]
    exact deltaLoop_inf_zero_step fuel
  · decide

/-- C9 (amended).  **Bounded retries require a positive shift step.**
`PCFDynamics.delta`'s retry loop terminates within `maxShift.toNat + 2`
iterations whenever `shift_step ≥ 1` (for any depth, any `max_shift`, and
any behaviour of the inner computation, exceptions included), and each of
`compute_dynamics`'s two depth-retry loops executes at most
`max_iters` iterations unconditionally. -/
theorem C9_retry_loops_bounded :
    (∀ (f : ℤ → ℤ → DynOut) (depth shiftStep maxShift : ℤ) (fuel : ℕ),
      1 ≤ shiftStep → maxShift.toNat + 2 ≤ fuel →
      (delta f depth shiftStep maxShift fuel).isSome) ∧
    (∀ (h : ℤ → DynOut) (depth maxIters depthShift : ℤ),
      (computeDynamicsDelta h depth maxIters depthShift).2 ≤ maxIters.toNat) ∧
    (∀ (h : ℤ → DynOut) (depth maxIters depthShift : ℤ),
      (computeDynamicsConv h depth maxIters depthShift).2 ≤ maxIters.toNat) := by
  refine ⟨fun f depth shiftStep maxShift fuel hstep hfuel => ?_,
    fun h depth maxIters depthShift => cdDeltaGo_count_le h depthShift _ _ _ _,
    fun h depth maxIters depthShift => cdConvGo_count_le h depthShift _ _ _ _⟩
  rw [delta]
  by_cases hd : depth < 1
  · rw [if_pos hd]; rfl
  · rw [if_neg hd]
    exact deltaLoop_isSome f depth shiftStep maxShift hstep fuel ⊤ 0 (by omega)

/-! ## `PCFDynamics.errors` and `PCFDynamics.q_reds`
(`src/pcf_dynamical_parameters.py` lines 177–222)

The external `pcf.limit` routine of ramanujantools is abstracted: for
`errors`, an oracle `f : ℤ → ℚ` giving `pcf.limit(iteration).as_float()`;
for `q_reds`, an oracle `r : ℤ → ℤ × ℤ` giving
`pcf.limit(iteration).as_rational()`. -/

/-- `sorted(list(set(depths)))`. -/
def insertSorted (x : ℤ) : List ℤ → List ℤ
  | [] => [x]
  | y :: ys => if x ≤ y then x :: y :: ys else y :: insertSorted x ys

/-- `sorted(list(set(depths)))`. -/
def sortedDedup (l : List ℤ) : List ℤ := l.dedup.foldr insertSorted []

/-- `PCFDynamics.errors(depths, limit, log=False)` (lines 177–200):
iterations are `depth + CIDS`; when no limit is supplied the extra iteration
`2*depths[-1] + CIDS` is appended and its value used as the limit; the error
at depth `d` is `|limit - f(d + CIDS)|`. -/
def errorsM (f : ℤ → ℚ) (depths : List ℤ) (limitArg : Option ℚ) : List ℚ :=
  let ds := sortedDedup depths
  let limit := match limitArg with
    | some L => L
    | none => f (2 * ds.getLast?.getD 0 + CIDS)
  ds.map (fun d => |limit - f (d + CIDS)|)

/-- `PCFDynamics.q_red(limit)` (lines 202–206): `p, q = limit.as_rational();
q / gcd(p, q)`. -/
def qRed (pq : ℤ × ℤ) : ℤ := pq.2 / (Int.gcd pq.1 pq.2 : ℤ)

/-- `PCFDynamics.q_reds(depths, log=False)` (lines 208–222):
`depth_to_ind = {depth: i for i, depth in enumerate(range(1, depths[-1]+1))}`
maps depth `d` to list index `d - 1`;
`limits = pcf.limit(list(range(CIDS, depths[-1] + CIDS)))` evaluates the
external limit at iterations `CIDS, CIDS+1, …, depths[-1] + CIDS - 1`;
the reduced denominator at depth `d` is `q_red(limits[d - 1])`. -/
def qRedsM (r : ℤ → ℤ × ℤ) (depths : List ℤ) : List ℤ :=
  let ds := sortedDedup depths
  let D := ds.getLast?.getD 0
  let limits := (List.range D.toNat).map (fun (i : ℕ) => r (CIDS + (i : ℤ)))
  ds.map (fun d => qRed (limits.getD (d - 1).toNat (0, 0)))

/-- An `as_rational` oracle that records the iteration index it was read at:
iteration `k` yields the rational `k/1`, whose reduced denominator is `k`
itself. -/
def qRedOracleEx : ℤ → ℤ × ℤ := fun k => (1, k)

/-- Counterexample to C7: at depth `d = 1`, `q_reds` reads the external
limit at iteration `1 + CIDS − 1 = 2`, not at `1 + CIDS = 3` as the claim
states — with the recording oracle the computed reduced denominator is 2
while the claim's index would give 3. -/
theorem C7_qreds_offset_counterexample :
    qRedsM qRedOracleEx [1] = [2] ∧
    qRed (qRedOracleEx (1 + CIDS)) = 3 ∧ (2 : ℤ) ≠ 3 := by
  decide

theorem sortedDedup_singleton (d : ℤ) : sortedDedup [d] = [d] := by
  simp [sortedDedup, List.dedup, insertSorted]

/-- `deltaLoop` consults its oracle only at the depth argument
`depth + CIDS`. -/
theorem deltaLoop_depends_only_on_cids (f₁ f₂ : ℤ → ℤ → DynOut)
    (depth shiftStep maxShift : ℤ)
    (h : ∀ s, f₁ s (depth + CIDS) = f₂ s (depth + CIDS)) :
    ∀ (fuel : ℕ) (result : WithTop ℚ) (shift : ℤ),
      deltaLoop f₁ depth shiftStep maxShift fuel result shift =
        deltaLoop f₂ depth shiftStep maxShift fuel result shift := by
  intro fuel
  induction fuel with
  | zero => intro result shift; rfl
  | succ fuel ih =>
      intro result shift
      rw [deltaLoop, deltaLoop, h shift]
      by_cases hr : result ≠ ⊤
      · rw [if_pos hr, if_pos hr]
      · rw [if_neg hr, if_neg hr]
        by_cases hs : maxShift < shift
        · rw [if_pos hs, if_pos hs]
        · rw [if_neg hs, if_neg hs]
          cases f₂ shift (depth + CIDS) with
          | err => rfl
          | val v => exact ih v (shift + shiftStep)

/-- C7 (amended).  **The convergent-index offset is uniform for `errors` and
`delta` but off by one in `q_reds`.**  For every depth `d ≥ 1`: `errors`
reads the external limit routine at iteration `d + CIDS` (and, when no limit
is supplied, at `2d + CIDS` for the reference limit); `delta` passes the
depth argument `d + CIDS` to the external routine on every retry (its result
depends on the oracle only through that argument); but `q_reds` addresses
the `d`-th convergent through iteration `d + CIDS − 1`. -/
theorem C7_cids_offsets (f : ℤ → ℚ) (r : ℤ → ℤ × ℤ) (L : ℚ) (d : ℤ)
    (hd : 1 ≤ d) :
    errorsM f [d] (some L) = [|L - f (d + CIDS)|] ∧
    errorsM f [d] none = [|f (2 * d + CIDS) - f (d + CIDS)|] ∧
    qRedsM r [d] = [qRed (r (d + CIDS - 1))] ∧
    (∀ (f₁ f₂ : ℤ → ℤ → DynOut) (shiftStep maxShift : ℤ) (fuel : ℕ),
      (∀ s, f₁ s (d + CIDS) = f₂ s (d + CIDS)) →
      delta f₁ d shiftStep maxShift fuel = delta f₂ d shiftStep maxShift fuel) := by
  refine ⟨?_, ?_, ?_, ?_⟩
  · rw [errorsM, sortedDedup_singleton]
    rfl
  · rw [errorsM, sortedDedup_singleton]
    rfl
  · rw [qRedsM, sortedDedup_singleton]
    show [qRed (((List.range d.toNat).map
        (fun (i : ℕ) => r (CIDS + (i : ℤ)))).getD (d - 1).toNat (0, 0))] = _
    rw [List.getD_eq_getElem?_getD, List.getElem?_map,
      List.getElem?_range (by omega : (d - 1).toNat < d.toNat)]
    have hc : CIDS + (((d - 1).toNat : ℕ) : ℤ) = d + CIDS - 1 := by omega
    simp only [Option.map_some', Option.getD_some, hc]
  · intro f₁ f₂ shiftStep maxShift fuel h
    rw [delta, delta]
    by_cases hdep : d < 1
    · rw [if_pos hdep, if_pos hdep]
    · rw [if_neg hdep, if_neg hdep]
      exact deltaLoop_depends_only_on_cids f₁ f₂ d shiftStep maxShift h fuel ⊤ 0

/-- Witness for C7 (amended) at `d = 3` with recording oracles. -/
theorem C7_cids_offsets_witness :
    errorsM (fun k => (k : ℚ)) [3] (some 0) = [|(0 : ℚ) - ((3 : ℤ) + CIDS : ℤ)|] ∧
    errorsM (fun k => (k : ℚ)) [3] none =
      [|((2 * 3 + CIDS : ℤ) : ℚ) - ((3 : ℤ) + CIDS : ℤ)|] ∧
    qRedsM qRedOracleEx [3] = [qRed (qRedOracleEx ((3 : ℤ) + CIDS - 1))] ∧
    (∀ (f₁ f₂ : ℤ → ℤ → DynOut) (shiftStep maxShift : ℤ) (fuel : ℕ),
      (∀ s, f₁ s ((3 : ℤ) + CIDS) = f₂ s ((3 : ℤ) + CIDS)) →
      delta f₁ 3 shiftStep maxShift fuel = delta f₂ 3 shiftStep maxShift fuel) :=
  C7_cids_offsets (fun k => (k : ℚ)) qRedOracleEx 0 3 (by norm_num)

/-! ## The PCF value object over rational functions
(`PCF.__init__`, `inflate`, `deflate_all`; `src/unifier/pcf.py`)

Rational functions of the index are `RatFunc K` over a field of
coefficients `K` (the engine's sympy coefficients are `ℚ`); sympy's
`simplify(cancel(·))` canonical form is the `RatFunc` value, with
`as_numer_denom` given by `RatFunc.num` / `RatFunc.denom` (coprime, monic
denominator).  Polynomial `gcd`/`lcm` are the normalized ones of `K[X]`. -/

open scoped Classical

section RatFuncPCF

variable {K : Type} [Field K]

/-- Substitution of `n + t` for the index variable `n` in a polynomial
(sympy's `subs({n: n + t})`), as a ring homomorphism. -/
noncomputable def polyShift (t : K) : Polynomial K →+* Polynomial K :=
  (Polynomial.aeval (Polynomial.X + Polynomial.C t)).toRingHom

theorem polyShift_apply (t : K) (p : Polynomial K) :
    polyShift t p = p.comp (Polynomial.X + Polynomial.C t) := rfl

theorem polyShift_polyShift (t u : K) (p : Polynomial K) :
    polyShift t (polyShift u p) =
      p.comp ((Polynomial.X + Polynomial.C u).comp (Polynomial.X + Polynomial.C t)) := by
  simp only [polyShift_apply, Polynomial.comp_assoc]

theorem polyShift_injective (t : K) : Function.Injective (polyShift t) := by
  intro p q h
  have h2 : polyShift (-t) (polyShift t p) = polyShift (-t) (polyShift t q) := by rw [h]
  simpa [polyShift_polyShift, Polynomial.add_comp, Polynomial.X_comp, Polynomial.C_comp,
    Polynomial.comp_X] using h2

theorem polyShift_ne_zero (t : K) {p : Polynomial K} (hp : p ≠ 0) : polyShift t p ≠ 0 :=
  fun h => hp (polyShift_injective t (h.trans (map_zero (polyShift t)).symm))

/-- Substitution of `n + t` for `n` in a rational function
(sympy's `subs({n: n + t})` on a rational function), as a ring
homomorphism on `RatFunc K`. -/
noncomputable def ratShift (t : K) : RatFunc K →+* RatFunc K :=
  IsFractionRing.lift (g := (algebraMap (Polynomial K) (RatFunc K)).comp (polyShift t))
    (fun _ _ h => polyShift_injective t
      (IsFractionRing.injective (Polynomial K) (RatFunc K) h))

theorem ratShift_algebraMap (t : K) (p : Polynomial K) :
    ratShift t (algebraMap _ _ p) = algebraMap _ _ (polyShift t p) :=
  IsFractionRing.lift_algebraMap _ _

theorem div_dvd_div_of_dvd_dvd {a b c : Polynomial K} (hab : a ∣ b) (hbc : b ∣ c)
    (ha : a ≠ 0) (hb : b ≠ 0) : c / b ∣ c / a := by
  obtain ⟨t, rfl⟩ := hab
  obtain ⟨s, rfl⟩ := hbc
  rw [mul_div_cancel_left₀ _ hb, mul_assoc, mul_div_cancel_left₀ _ ha]
  exact dvd_mul_left s t

theorem num_div_dvd_div {nn dd : Polynomial K} (hd : dd ≠ 0) {g : Polynomial K}
    (hg : g ≠ 0) (hgn : g ∣ nn) (hgd : g ∣ dd) :
    (algebraMap _ (RatFunc K) nn / algebraMap _ _ dd).num ∣ nn / g := by
  by_cases hn : nn = 0
  · subst hn
    simp [EuclideanDomain.zero_div]
  · rw [RatFunc.num_div]
    have hgcd : gcd nn dd ≠ 0 := gcd_ne_zero_of_left (q := dd) hn
    have hu : IsUnit (Polynomial.C (dd / gcd nn dd).leadingCoeff⁻¹) := by
      refine Polynomial.isUnit_C.mpr (IsUnit.inv ?_)
      exact (Polynomial.leadingCoeff_ne_zero.mpr (right_div_gcd_ne_zero hd)).isUnit
    exact hu.mul_left_dvd.mpr
      (div_dvd_div_of_dvd_dvd (dvd_gcd hgn hgd) (gcd_dvd_left nn dd) hg hgcd)

/-- The `PCF` value object of `src/unifier/pcf.py` (lines 24–54): partial
denominator `a`, partial numerator `b`, the cumulative inflation factor
`inflated_by`, the denominator-clearing factor
`inflate_to_integer_polynomials` and the integer-polynomial versions
`a_compute`, `b_compute`.  sympy's `simplify(cancel(...))` canonical form is
the `RatFunc` value itself. -/
structure QPCF (K : Type) [Field K] where
  a : RatFunc K
  b : RatFunc K
  inflatedBy : RatFunc K
  inflateToIntegerPolynomials : Polynomial K
  aCompute : RatFunc K
  bCompute : RatFunc K

/-- `PCF.__init__(a, b, inflated_by)` (`src/unifier/pcf.py` lines 24–46):
`inflate_to_integer_polynomials = lcm(denom(a), denom(b))`;
`inflated_by = inflated_by_arg * inflate_to_integer_polynomials`;
`a_compute = a * itip`; `b_compute = b * itip * itip(n-1)`. -/
noncomputable def mkPCF (a b inflatedBy : RatFunc K) : QPCF K :=
  let itip : Polynomial K := lcm a.denom b.denom
  { a := a, b := b,
    inflatedBy := inflatedBy * algebraMap _ _ itip,
    inflateToIntegerPolynomials := itip,
    aCompute := a * algebraMap _ _ itip,
    bCompute := b * algebraMap _ _ itip * algebraMap _ _ (polyShift (-1) itip) }

/-- `PCF.inflate(c)` (`src/unifier/pcf.py` lines 81–91):
`PCF(a*c, b*c*c(n-1), inflated_by=self.inflated_by*c)`. -/
noncomputable def QPCF.inflate (p : QPCF K) (c : RatFunc K) : QPCF K :=
  mkPCF (p.a * c) (p.b * c * ratShift (-1) c) (p.inflatedBy * c)

/-- Modelled from the spec: `content` from
`src/unifier/utils/pcf_utils.py` (imported by `pcf.py` but not present
under `src/`) — per the spec's glossary, "the GCD of a set of polynomials
over the index ring", here the normalized GCD in `K[X]`. -/
noncomputable def content (p q : Polynomial K) : Polynomial K := gcd p q

/-- The LCM of the denominators of two rational functions — the
`inflate_to_integer_polynomials` factor of the constructor
(`src/unifier/pcf.py` lines 38–41). -/
noncomputable def denLcm (x y : RatFunc K) : Polynomial K := lcm x.denom y.denom

theorem denLcm_eq (x y : RatFunc K) : denLcm x y = lcm x.denom y.denom := rfl

/-- `PCF.deflate_all()` (`src/unifier/pcf.py` lines 93–94):
`self.inflate(1 / content(numer(a), numer(b)))`. -/
noncomputable def QPCF.deflateAll (p : QPCF K) : QPCF K :=
  p.inflate (algebraMap _ _ (content p.a.num p.b.num))⁻¹

theorem inflate_a (p : QPCF K) (c : RatFunc K) : (p.inflate c).a = p.a * c := rfl
theorem inflate_b (p : QPCF K) (c : RatFunc K) :
    (p.inflate c).b = p.b * c * ratShift (-1) c := rfl
theorem inflate_inflatedBy (p : QPCF K) (c : RatFunc K) :
    (p.inflate c).inflatedBy = p.inflatedBy * c *
      algebraMap _ _ (lcm (p.a * c).denom (p.b * c * ratShift (-1) c).denom) := rfl

theorem inflate_inv_a (p : QPCF K) (g : Polynomial K) :
    (p.inflate (algebraMap _ _ g)⁻¹).a =
      algebraMap _ _ p.a.num / algebraMap _ _ (p.a.denom * g) := by
  rw [inflate_a]
  conv_lhs => rw [← RatFunc.num_div_denom p.a]
  rw [← div_eq_mul_inv, div_div, ← map_mul]

theorem inflate_inv_b (p : QPCF K) (g : Polynomial K) :
    (p.inflate (algebraMap _ _ g)⁻¹).b =
      algebraMap _ _ p.b.num /
        algebraMap _ _ (p.b.denom * g * polyShift (-1) g) := by
  rw [inflate_b, map_inv₀, ratShift_algebraMap]
  conv_lhs => rw [← RatFunc.num_div_denom p.b]
  rw [show ∀ x y u v : RatFunc K, x / y * u⁻¹ * v⁻¹ = x / (y * u * v) from
    fun x y u v => by ring, ← map_mul, ← map_mul]

theorem inflate_inflatedBy_of_denom_one (p : QPCF K) (c : RatFunc K)
    (h1 : (p.a * c).denom = 1) (h2 : (p.b * c * ratShift (-1) c).denom = 1) :
    (p.inflate c).inflatedBy = p.inflatedBy * c := by
  rw [inflate_inflatedBy, h1, h2, lcm_one_left, normalize_one, map_one, mul_one]

theorem content_deflateAll_num (p : QPCF K) (h : ¬(p.a = 0 ∧ p.b = 0)) :
    content p.deflateAll.a.num p.deflateAll.b.num = 1 := by
  have hda : p.a.denom ≠ 0 := RatFunc.denom_ne_zero p.a
  have hdb : p.b.denom ≠ 0 := RatFunc.denom_ne_zero p.b
  have hgz : content p.a.num p.b.num ≠ 0 := by
    rcases not_and_or.mp h with hA | hB
    · exact gcd_ne_zero_of_left (RatFunc.num_ne_zero hA)
    · exact gcd_ne_zero_of_right (RatFunc.num_ne_zero hB)
  have hgm : polyShift (-1) (content p.a.num p.b.num) ≠ 0 := polyShift_ne_zero _ hgz
  have hA : p.deflateAll.a.num ∣ p.a.num / content p.a.num p.b.num := by
    rw [QPCF.deflateAll, inflate_inv_a]
    exact num_div_dvd_div (mul_ne_zero hda hgz) hgz (gcd_dvd_left _ _)
      (dvd_mul_left _ _)
  have hB : p.deflateAll.b.num ∣ p.b.num / content p.a.num p.b.num := by
    rw [QPCF.deflateAll, inflate_inv_b]
    refine num_div_dvd_div (mul_ne_zero (mul_ne_zero hdb hgz) hgm) hgz
      (gcd_dvd_right _ _) ?_
    exact Dvd.dvd.mul_right (dvd_mul_left _ _) _
  have hcop : IsCoprime (p.a.num / content p.a.num p.b.num)
      (p.b.num / content p.a.num p.b.num) := by
    by_cases hbz : p.b = 0
    · have hna : p.a.num ≠ 0 := RatFunc.num_ne_zero (by tauto)
      have h2 := isCoprime_div_gcd_div_gcd (p := p.b.num) (q := p.a.num) hna
      rw [gcd_comm p.b.num p.a.num] at h2
      exact h2.symm
    · exact isCoprime_div_gcd_div_gcd (RatFunc.num_ne_zero hbz)
  have hunit : IsUnit (gcd p.deflateAll.a.num p.deflateAll.b.num) :=
    hcop.isUnit_of_dvd' ((gcd_dvd_left _ _).trans hA) ((gcd_dvd_right _ _).trans hB)
  rw [content, ← normalize_gcd]
  exact normalize_eq_one.mpr hunit

theorem deflateAll_ab (p : QPCF K) :
    p.deflateAll.deflateAll.a = p.deflateAll.a ∧
      p.deflateAll.deflateAll.b = p.deflateAll.b := by
  by_cases h : p.a = 0 ∧ p.b = 0
  · obtain ⟨ha, hb⟩ := h
    have hqa : p.deflateAll.a = 0 := by
      show p.a * _ = 0
      rw [ha, zero_mul]
    have hqb : p.deflateAll.b = 0 := by
      show p.b * _ * _ = 0
      rw [hb, zero_mul, zero_mul]
    constructor
    · show p.deflateAll.a * _ = p.deflateAll.a
      rw [hqa, zero_mul]
    · show p.deflateAll.b * _ * _ = p.deflateAll.b
      rw [hqb, zero_mul, zero_mul]
  · have hcont := content_deflateAll_num p h
    constructor
    · show p.deflateAll.a * (algebraMap _ _
        (content p.deflateAll.a.num p.deflateAll.b.num))⁻¹ = p.deflateAll.a
      rw [hcont, map_one, inv_one, mul_one]
    · show p.deflateAll.b * (algebraMap _ _
          (content p.deflateAll.a.num p.deflateAll.b.num))⁻¹ *
        ratShift (-1) (algebraMap _ _
          (content p.deflateAll.a.num p.deflateAll.b.num))⁻¹ = p.deflateAll.b
      rw [hcont, map_one, inv_one, mul_one, map_one, mul_one]

-- concrete computations for the counterexamples
theorem num_inv_monic {q : Polynomial K} (hq : q.Monic) :
    ((algebraMap (Polynomial K) (RatFunc K) q)⁻¹).num = 1 := by
  rw [← one_div, ← map_one (algebraMap (Polynomial K) (RatFunc K)), RatFunc.num_div]
  rw [gcd_one_left, EuclideanDomain.div_one, EuclideanDomain.div_one, hq.leadingCoeff]
  simp

theorem denom_inv_monic {q : Polynomial K} (hq : q.Monic) :
    ((algebraMap (Polynomial K) (RatFunc K) q)⁻¹).denom = q := by
  rw [← one_div, ← map_one (algebraMap (Polynomial K) (RatFunc K)),
    RatFunc.denom_div _ hq.ne_zero]
  rw [gcd_one_left, EuclideanDomain.div_one, hq.leadingCoeff]
  simp

theorem polyShift_neg_one_X :
    polyShift (-1 : K) Polynomial.X = Polynomial.X - Polynomial.C 1 := by
  rw [polyShift_apply, Polynomial.X_comp, map_neg, ← sub_eq_add_neg]

theorem ratShift_X_inv :
    ratShift (-1 : K) (RatFunc.X)⁻¹ =
      (algebraMap (Polynomial K) (RatFunc K) (Polynomial.X - Polynomial.C 1))⁻¹ := by
  rw [← RatFunc.algebraMap_X, map_inv₀, ratShift_algebraMap, polyShift_neg_one_X]

theorem denom_X_inv : ((RatFunc.X : RatFunc K)⁻¹).denom = Polynomial.X := by
  rw [← RatFunc.algebraMap_X]
  exact denom_inv_monic Polynomial.monic_X

theorem monic_XXm1 : (Polynomial.X * (Polynomial.X - Polynomial.C (1 : K))).Monic :=
  Polynomial.monic_X.mul (Polynomial.monic_X_sub_C 1)

theorem b_inflate_X_inv :
    (1 : RatFunc K) * (RatFunc.X)⁻¹ * ratShift (-1) (RatFunc.X)⁻¹ =
      (algebraMap (Polynomial K) (RatFunc K)
        (Polynomial.X * (Polynomial.X - Polynomial.C 1)))⁻¹ := by
  rw [one_mul, ratShift_X_inv, ← RatFunc.algebraMap_X, ← mul_inv, ← map_mul]

theorem mkPCF_one_inflatedBy : (mkPCF (1 : RatFunc K) 1 1).inflatedBy = 1 := by
  show (1 : RatFunc K) * algebraMap _ _ (lcm (1 : RatFunc K).denom (1 : RatFunc K).denom) = 1
  rw [RatFunc.denom_one, lcm_one_left, normalize_one, map_one, one_mul]

theorem inflate_one_one_X_inv_inflatedBy :
    ((mkPCF (1 : RatFunc K) 1 1).inflate (RatFunc.X)⁻¹).inflatedBy =
      algebraMap (Polynomial K) (RatFunc K) (Polynomial.X - Polynomial.C 1) := by
  rw [inflate_inflatedBy, mkPCF_one_inflatedBy]
  have ha : (mkPCF (1 : RatFunc K) 1 1).a = 1 := rfl
  have hb : (mkPCF (1 : RatFunc K) 1 1).b = 1 := rfl
  rw [ha, hb, b_inflate_X_inv, one_mul, denom_X_inv, denom_inv_monic monic_XXm1]
  rw [lcm_eq_right_iff _ _ (monic_XXm1 (K := K)).normalize_eq_self |>.mpr
    (dvd_mul_right _ _)]
  rw [← RatFunc.algebraMap_X, map_mul,
    inv_mul_cancel_left₀ (RatFunc.algebraMap_ne_zero Polynomial.X_ne_zero)]

theorem XM1_ne_X_inv :
    algebraMap (Polynomial K) (RatFunc K) (Polynomial.X - Polynomial.C 1) ≠
      (RatFunc.X)⁻¹ := by
  intro h
  have h2 : algebraMap (Polynomial K) (RatFunc K)
      ((Polynomial.X - Polynomial.C 1) * Polynomial.X) = 1 := by
    rw [map_mul, RatFunc.algebraMap_X, h, inv_mul_cancel₀ RatFunc.X_ne_zero]
  have h3 : (Polynomial.X - Polynomial.C (1 : K)) * Polynomial.X = 1 :=
    RatFunc.algebraMap_injective K (by rw [h2, map_one])
  have h4 : ((Polynomial.X - Polynomial.C (1 : K)) * Polynomial.X).natDegree = 0 := by
    rw [h3, Polynomial.natDegree_one]
  rw [Polynomial.natDegree_mul (Polynomial.X_sub_C_ne_zero 1) Polynomial.X_ne_zero,
    Polynomial.natDegree_X_sub_C, Polynomial.natDegree_X] at h4
  omega

theorem ratfuncX_num : (RatFunc.X : RatFunc K).num = Polynomial.X := by
  rw [← RatFunc.algebraMap_X, RatFunc.num_algebraMap]

theorem ratfuncX_denom : (RatFunc.X : RatFunc K).denom = 1 := by
  rw [← RatFunc.algebraMap_X, RatFunc.denom_algebraMap]

theorem content_X_X : content (Polynomial.X : Polynomial K) Polynomial.X = Polynomial.X := by
  rw [content, gcd_same, Polynomial.monic_X.normalize_eq_self]

theorem mkPCF_XX_inflatedBy : (mkPCF (RatFunc.X : RatFunc K) RatFunc.X 1).inflatedBy = 1 := by
  show (1 : RatFunc K) * algebraMap _ _ (lcm (RatFunc.X : RatFunc K).denom
    (RatFunc.X : RatFunc K).denom) = 1
  rw [ratfuncX_denom, lcm_one_left, normalize_one, map_one, one_mul]

theorem XX_deflate_a :
    ((mkPCF (RatFunc.X : RatFunc K) RatFunc.X 1).deflateAll).a = 1 := by
  show (RatFunc.X : RatFunc K) *
    (algebraMap _ _ (content (RatFunc.X : RatFunc K).num (RatFunc.X : RatFunc K).num))⁻¹ = 1
  rw [ratfuncX_num, content_X_X, RatFunc.algebraMap_X, mul_inv_cancel₀ RatFunc.X_ne_zero]

theorem XX_deflate_b :
    ((mkPCF (RatFunc.X : RatFunc K) RatFunc.X 1).deflateAll).b =
      (algebraMap (Polynomial K) (RatFunc K) (Polynomial.X - Polynomial.C 1))⁻¹ := by
  show (RatFunc.X : RatFunc K) *
      (algebraMap _ _ (content (RatFunc.X : RatFunc K).num (RatFunc.X : RatFunc K).num))⁻¹ *
      ratShift (-1) (algebraMap _ _ (content (RatFunc.X : RatFunc K).num
        (RatFunc.X : RatFunc K).num))⁻¹ =
      (algebraMap (Polynomial K) (RatFunc K) (Polynomial.X - Polynomial.C 1))⁻¹
  rw [ratfuncX_num, content_X_X, RatFunc.algebraMap_X, mul_inv_cancel₀ RatFunc.X_ne_zero,
    one_mul, ratShift_X_inv]

theorem XX_deflate_inflatedBy :
    ((mkPCF (RatFunc.X : RatFunc K) RatFunc.X 1).deflateAll).inflatedBy =
      (RatFunc.X : RatFunc K)⁻¹ *
        algebraMap (Polynomial K) (RatFunc K) (Polynomial.X - Polynomial.C 1) := by
  rw [QPCF.deflateAll, inflate_inflatedBy, mkPCF_XX_inflatedBy]
  have ha : (mkPCF (RatFunc.X : RatFunc K) RatFunc.X 1).a = RatFunc.X := rfl
  have hb : (mkPCF (RatFunc.X : RatFunc K) RatFunc.X 1).b = RatFunc.X := rfl
  rw [ha, hb, ratfuncX_num, content_X_X]
  have hva : (RatFunc.X : RatFunc K) *
      (algebraMap (Polynomial K) (RatFunc K) Polynomial.X)⁻¹ = 1 := by
    rw [RatFunc.algebraMap_X, mul_inv_cancel₀ RatFunc.X_ne_zero]
  have hvb : (RatFunc.X : RatFunc K) *
      (algebraMap (Polynomial K) (RatFunc K) Polynomial.X)⁻¹ *
      ratShift (-1) (algebraMap (Polynomial K) (RatFunc K) Polynomial.X)⁻¹ =
      (algebraMap (Polynomial K) (RatFunc K) (Polynomial.X - Polynomial.C 1))⁻¹ := by
    rw [hva, one_mul, RatFunc.algebraMap_X, ratShift_X_inv]
  rw [hvb, hva, RatFunc.denom_one, denom_inv_monic (Polynomial.monic_X_sub_C 1),
    lcm_one_left, (Polynomial.monic_X_sub_C (1 : K)).normalize_eq_self,
    one_mul, RatFunc.algebraMap_X]

theorem XX_deflate2_inflatedBy :
    ((mkPCF (RatFunc.X : RatFunc K) RatFunc.X 1).deflateAll.deflateAll).inflatedBy =
      (RatFunc.X : RatFunc K)⁻¹ *
        algebraMap (Polynomial K) (RatFunc K) (Polynomial.X - Polynomial.C 1) *
        algebraMap (Polynomial K) (RatFunc K) (Polynomial.X - Polynomial.C 1) := by
  have hc : content (1 : Polynomial K) 1 = 1 := by
    rw [content, gcd_same, normalize_one]
  have ha2 : (1 : RatFunc K) * (algebraMap (Polynomial K) (RatFunc K) 1)⁻¹ = 1 := by
    rw [map_one (algebraMap (Polynomial K) (RatFunc K)), inv_one, mul_one]
  have hb2 : (algebraMap (Polynomial K) (RatFunc K) (Polynomial.X - Polynomial.C 1))⁻¹ *
      (algebraMap (Polynomial K) (RatFunc K) 1)⁻¹ *
      ratShift (-1) (algebraMap (Polynomial K) (RatFunc K) 1)⁻¹ =
      (algebraMap (Polynomial K) (RatFunc K) (Polynomial.X - Polynomial.C 1))⁻¹ := by
    rw [map_one (algebraMap (Polynomial K) (RatFunc K)), inv_one, mul_one,
      map_one (ratShift (-1 : K)), mul_one]
  rw [QPCF.deflateAll, inflate_inflatedBy, XX_deflate_a, XX_deflate_b,
    RatFunc.num_one, num_inv_monic (Polynomial.monic_X_sub_C 1), hc,
    XX_deflate_inflatedBy, ha2, hb2,
    map_one (algebraMap (Polynomial K) (RatFunc K)), inv_one, mul_one,
    RatFunc.denom_one, denom_inv_monic (Polynomial.monic_X_sub_C 1), lcm_one_left,
    (Polynomial.monic_X_sub_C (1 : K)).normalize_eq_self]

theorem XX_inflatedBy_ne :
    ((mkPCF (RatFunc.X : RatFunc K) RatFunc.X 1).deflateAll.deflateAll).inflatedBy ≠
      ((mkPCF (RatFunc.X : RatFunc K) RatFunc.X 1).deflateAll).inflatedBy := by
  rw [XX_deflate_inflatedBy, XX_deflate2_inflatedBy]
  intro h
  have hXm1 : algebraMap (Polynomial K) (RatFunc K) (Polynomial.X - Polynomial.C 1) ≠ 0 :=
    RatFunc.algebraMap_ne_zero (Polynomial.X_sub_C_ne_zero 1)
  have hbase : (RatFunc.X : RatFunc K)⁻¹ *
      algebraMap (Polynomial K) (RatFunc K) (Polynomial.X - Polynomial.C 1) ≠ 0 :=
    mul_ne_zero (inv_ne_zero RatFunc.X_ne_zero) hXm1
  have h2 : algebraMap (Polynomial K) (RatFunc K) (Polynomial.X - Polynomial.C 1) = 1 := by
    have h3 := h
    rw [show (RatFunc.X : RatFunc K)⁻¹ *
        algebraMap (Polynomial K) (RatFunc K) (Polynomial.X - Polynomial.C 1) =
        ((RatFunc.X : RatFunc K)⁻¹ *
          algebraMap (Polynomial K) (RatFunc K) (Polynomial.X - Polynomial.C 1)) * 1
        from (mul_one _).symm] at h3
    exact mul_left_cancel₀ hbase (by rw [← h3, mul_one])
  have h4 : (Polynomial.X - Polynomial.C (1 : K)) = 1 :=
    RatFunc.algebraMap_injective K (by rw [h2, map_one])
  have h5 : (Polynomial.X - Polynomial.C (1 : K)).natDegree = 0 := by
    rw [h4, Polynomial.natDegree_one]
  rw [Polynomial.natDegree_X_sub_C] at h5
  omega

/-- C3 (amended).  **Inflate multiplies `inflated_by` by `c` and by the
denominator LCM of the new `a`, `b`.**  For every PCF `p` and nonzero
rational function `c`: `p.inflate c` has partial denominator `p.a * c` and
partial numerator `p.b * c(n) * c(n-1)` in canonical cancelled form, and its
`inflated_by` equals `p.inflated_by * c` **times the constructor's
denominator-clearing factor** `lcm(denom(a*c), denom(b*c*c(n-1)))`; the
claimed exact form `p.inflated_by * c` holds whenever the inflated `a` and
`b` are polynomials (denominators 1), and then composition under repeated
inflation is exactly multiplicative. -/
theorem C3_inflate_fields (p : QPCF ℚ) (c : RatFunc ℚ) (hc : c ≠ 0) :
    (p.inflate c).a = p.a * c ∧
    (p.inflate c).b = p.b * c * ratShift (-1) c ∧
    (p.inflate c).inflatedBy = p.inflatedBy * c *
      algebraMap _ _ (denLcm (p.a * c) (p.b * c * ratShift (-1) c)) ∧
    ((p.a * c).denom = 1 → (p.b * c * ratShift (-1) c).denom = 1 →
      (p.inflate c).inflatedBy = p.inflatedBy * c) := by
  refine ⟨rfl, rfl, ?_, inflate_inflatedBy_of_denom_one p c⟩
  rw [denLcm_eq]
  exact inflate_inflatedBy p c

/-- Counterexample to C3: inflating `PCF(1, 1)` by `c = 1/n` stores
`inflated_by = n − 1` (the constructor multiplies by the denominator LCM
`n(n−1)`), not `1 · c = 1/n` as the claim states. -/
theorem C3_inflatedBy_counterexample :
    ((mkPCF (1 : RatFunc ℚ) 1 1).inflate (RatFunc.X)⁻¹).inflatedBy ≠
      (mkPCF (1 : RatFunc ℚ) 1 1).inflatedBy * (RatFunc.X)⁻¹ ∧
    ((mkPCF (1 : RatFunc ℚ) 1 1).inflate (RatFunc.X)⁻¹).inflatedBy =
      algebraMap (Polynomial ℚ) (RatFunc ℚ) (Polynomial.X - Polynomial.C 1) ∧
    (RatFunc.X : RatFunc ℚ)⁻¹ ≠ 0 := by
  refine ⟨?_, inflate_one_one_X_inv_inflatedBy, inv_ne_zero RatFunc.X_ne_zero⟩
  rw [inflate_one_one_X_inv_inflatedBy, mkPCF_one_inflatedBy, one_mul]
  exact XM1_ne_X_inv

/-- C8 (amended).  **DeflateAll is idempotent on the fraction `(a, b)` but
not on the whole PCF object.**  For every PCF `p`, `deflate_all` applied
twice yields the same partial denominator and partial numerator as applied
once — because the content of the numerators of a fully deflated PCF is 1
(proved for every PCF that is not identically `(0, 0)`) — but the
`inflated_by` field can differ between the two (see the counterexample), so
the full PCF value objects are not equal. -/
theorem C8_deflate_all_idempotent (p : QPCF ℚ) :
    p.deflateAll.deflateAll.a = p.deflateAll.a ∧
    p.deflateAll.deflateAll.b = p.deflateAll.b ∧
    (¬(p.a = 0 ∧ p.b = 0) → content p.deflateAll.a.num p.deflateAll.b.num = 1) :=
  ⟨(deflateAll_ab p).1, (deflateAll_ab p).2, content_deflateAll_num p⟩

/-- Counterexample to C8: for `PCF(n, n)`, `deflate_all` applied twice and
once agree on `a` and `b` but differ in `inflated_by` (the constructor
multiplies the second time by the denominator LCM `n − 1` again), so the
resulting PCF value objects are not the same. -/
theorem C8_inflated_by_counterexample :
    ((mkPCF (RatFunc.X : RatFunc ℚ) RatFunc.X 1).deflateAll.deflateAll).inflatedBy ≠
      ((mkPCF (RatFunc.X : RatFunc ℚ) RatFunc.X 1).deflateAll).inflatedBy ∧
    ((mkPCF (RatFunc.X : RatFunc ℚ) RatFunc.X 1).deflateAll.deflateAll).a =
      ((mkPCF (RatFunc.X : RatFunc ℚ) RatFunc.X 1).deflateAll).a ∧
    ((mkPCF (RatFunc.X : RatFunc ℚ) RatFunc.X 1).deflateAll.deflateAll).b =
      ((mkPCF (RatFunc.X : RatFunc ℚ) RatFunc.X 1).deflateAll).b :=
  ⟨XX_inflatedBy_ne, (deflateAll_ab _).1, (deflateAll_ab _).2⟩


/-- Witness for C3 (amended) at `p = PCF(1, 1)` and `c = n`. -/
theorem C3_inflate_fields_witness :
    ((mkPCF (1 : RatFunc ℚ) 1 1).inflate RatFunc.X).a =
      (mkPCF (1 : RatFunc ℚ) 1 1).a * RatFunc.X ∧
    ((mkPCF (1 : RatFunc ℚ) 1 1).inflate RatFunc.X).b =
      (mkPCF (1 : RatFunc ℚ) 1 1).b * RatFunc.X * ratShift (-1) RatFunc.X ∧
    ((mkPCF (1 : RatFunc ℚ) 1 1).inflate RatFunc.X).inflatedBy =
      (mkPCF (1 : RatFunc ℚ) 1 1).inflatedBy * RatFunc.X *
        algebraMap _ _ (denLcm ((mkPCF (1 : RatFunc ℚ) 1 1).a * RatFunc.X)
          ((mkPCF (1 : RatFunc ℚ) 1 1).b * RatFunc.X * ratShift (-1) RatFunc.X)) ∧
    (((mkPCF (1 : RatFunc ℚ) 1 1).a * RatFunc.X).denom = 1 →
      ((mkPCF (1 : RatFunc ℚ) 1 1).b * RatFunc.X * ratShift (-1) RatFunc.X).denom = 1 →
      ((mkPCF (1 : RatFunc ℚ) 1 1).inflate RatFunc.X).inflatedBy =
        (mkPCF (1 : RatFunc ℚ) 1 1).inflatedBy * RatFunc.X) :=
  C3_inflate_fields (mkPCF 1 1 1) RatFunc.X RatFunc.X_ne_zero

theorem num_denom_div_of_monic_coprime {p q : Polynomial K} (hq : q.Monic)
    (hcop : IsCoprime p q) :
    (algebraMap (Polynomial K) (RatFunc K) p / algebraMap _ _ q).num = p ∧
    (algebraMap (Polynomial K) (RatFunc K) p / algebraMap _ _ q).denom = q := by
  have hg1 : gcd p q = 1 := by
    rw [← normalize_gcd]
    exact normalize_eq_one.mpr ((gcd_isUnit_iff _ _).mpr hcop)
  constructor
  · rw [RatFunc.num_div, hg1, EuclideanDomain.div_one, EuclideanDomain.div_one,
      hq.leadingCoeff]
    simp
  · rw [RatFunc.denom_div _ hq.ne_zero, hg1, EuclideanDomain.div_one, hq.leadingCoeff]
    simp

theorem ratShift_num (t : K) (x : RatFunc K) :
    (ratShift t x).num = polyShift t x.num := by
  conv_lhs => rw [← RatFunc.num_div_denom x]
  rw [map_div₀, ratShift_algebraMap, ratShift_algebraMap]
  exact (num_denom_div_of_monic_coprime ((RatFunc.monic_denom x).comp_X_add_C t)
    ((RatFunc.isCoprime_num_denom x).map _)).1

theorem ratShift_denom (t : K) (x : RatFunc K) :
    (ratShift t x).denom = polyShift t x.denom := by
  conv_lhs => rw [← RatFunc.num_div_denom x]
  rw [map_div₀, ratShift_algebraMap, ratShift_algebraMap]
  exact (num_denom_div_of_monic_coprime ((RatFunc.monic_denom x).comp_X_add_C t)
    ((RatFunc.isCoprime_num_denom x).map _)).2

-- integer roots (sp.solve(poly, n) filtered to sp.Integer instances)
noncomputable def intRootsF (q : Polynomial ℚ) : Finset ℤ :=
  (q.roots.toFinset.filter (fun r => r.den = 1)).image (fun r => r.num)

theorem mem_intRootsF {q : Polynomial ℚ} {z : ℤ} :
    z ∈ intRootsF q ↔ q ≠ 0 ∧ q.eval (z : ℚ) = 0 := by
  constructor
  · intro hz
    obtain ⟨r, hr, hrz⟩ := Finset.mem_image.mp hz
    obtain ⟨hroot, hden⟩ := Finset.mem_filter.mp hr
    rw [Multiset.mem_toFinset, Polynomial.mem_roots'] at hroot
    refine ⟨hroot.1, ?_⟩
    have : (z : ℚ) = r := by rw [← hrz]; exact Rat.coe_int_num_of_den_eq_one hden
    rw [this]
    exact hroot.2
  · intro ⟨hq, hz⟩
    refine Finset.mem_image.mpr ⟨(z : ℚ), Finset.mem_filter.mpr ⟨?_, Rat.den_intCast z⟩, Rat.num_intCast z⟩
    rw [Multiset.mem_toFinset, Polynomial.mem_roots']
    exact ⟨hq, hz⟩

/-- `get_shift(pcf)` from `src/unifier/utils/recurrence_transforms_utils.py`
lines 132–139. -/
noncomputable def getShift (p : QPCF ℚ) : ℤ :=
  let zeros_b_num := intRootsF p.b.num
  let zeros_b_den := intRootsF p.b.denom
  let zeros_a_den := intRootsF p.a.denom
  let shifta_den := if h : zeros_a_den.Nonempty then zeros_a_den.max' h + 1 else 0
  let shiftb_den := if h : zeros_b_den.Nonempty then zeros_b_den.max' h else 0
  let shiftb_num := if h : zeros_b_num.Nonempty then zeros_b_num.max' h else 0
  max (max shifta_den shiftb_den) shiftb_num

/-- `shift_to_viable(pcf)` lines 142–147: `pcf.subs({n: n + shift}), shift`
(where `PCF.subs` rebuilds via the constructor, `src/unifier/pcf.py`
lines 59–63). -/
noncomputable def shiftToViable (p : QPCF ℚ) : QPCF ℚ × ℤ :=
  (mkPCF (ratShift ((getShift p : ℤ) : ℚ) p.a)
    (ratShift ((getShift p : ℤ) : ℚ) p.b) 1, getShift p)

def isIntRoot (q : Polynomial ℚ) (z : ℤ) : Prop := q.eval (z : ℚ) = 0

theorem isIntRoot_polyShift (q : Polynomial ℚ) (t z : ℤ) :
    isIntRoot (polyShift ((t : ℤ) : ℚ) q) z ↔ isIntRoot q (z + t) := by
  unfold isIntRoot
  rw [polyShift_apply, Polynomial.eval_comp, Polynomial.eval_add, Polynomial.eval_X,
    Polynomial.eval_C]
  norm_cast

/-- Viability of a shift `t` for `pcf`, in the sense the code establishes:
no integer root of `a`'s denominator at or beyond index `t` (so none at a
shifted index ≥ 0) and no integer root of `b`'s numerator or denominator
at or beyond `t + 1` (so none at a shifted index ≥ 1; `b`'s lowest index in
a PCF is 1). -/
def ViableShift (p : QPCF ℚ) (t : ℤ) : Prop :=
  (∀ z : ℤ, t ≤ z → ¬ isIntRoot p.a.denom z) ∧
  (∀ z : ℤ, t + 1 ≤ z → ¬ isIntRoot p.b.denom z) ∧
  (∀ z : ℤ, t + 1 ≤ z → ¬ isIntRoot p.b.num z)

/-- C4: `shift_to_viable` returns a PCF whose `a`-denominator has no integer
root at any index ≥ 0 and whose `b`-numerator and `b`-denominator have no
integer root at any index ≥ 1, together with the least shift `t` that is
viable in that sense among the nonnegative ones (the returned shift itself
can be negative, and `b`'s numerator of the result can still vanish at
index 0; see the counterexample). -/
theorem C4_shift_to_viable (p : QPCF ℚ) (hb : p.b ≠ 0) :
    (∀ z : ℤ, 0 ≤ z → ¬ isIntRoot ((shiftToViable p).1.a.denom) z) ∧
    (∀ z : ℤ, 1 ≤ z → ¬ isIntRoot ((shiftToViable p).1.b.denom) z) ∧
    (∀ z : ℤ, 1 ≤ z → ¬ isIntRoot ((shiftToViable p).1.b.num) z) ∧
    (∀ t : ℤ, 0 ≤ t → ViableShift p t → (shiftToViable p).2 ≤ t) := by
  have hsa : (shiftToViable p).1.a = ratShift ((getShift p : ℤ) : ℚ) p.a := rfl
  have hsb : (shiftToViable p).1.b = ratShift ((getShift p : ℤ) : ℚ) p.b := rfl
  have hAle : (if h : (intRootsF p.a.denom).Nonempty
      then (intRootsF p.a.denom).max' h + 1 else 0) ≤ getShift p :=
    le_trans (le_max_left _ _) (le_max_left _ _)
  have hBle : (if h : (intRootsF p.b.denom).Nonempty
      then (intRootsF p.b.denom).max' h else 0) ≤ getShift p :=
    le_trans (le_max_right _ _) (le_max_left _ _)
  have hCle : (if h : (intRootsF p.b.num).Nonempty
      then (intRootsF p.b.num).max' h else 0) ≤ getShift p :=
    le_max_right _ _
  refine ⟨?_, ?_, ?_, ?_⟩
  · intro z hz hroot
    rw [hsa, ratShift_denom, isIntRoot_polyShift] at hroot
    have hmem : z + getShift p ∈ intRootsF p.a.denom :=
      mem_intRootsF.mpr ⟨RatFunc.denom_ne_zero p.a, hroot⟩
    have hne : (intRootsF p.a.denom).Nonempty := ⟨_, hmem⟩
    have hle := Finset.le_max' _ _ hmem
    rw [dif_pos hne] at hAle
    omega
  · intro z hz hroot
    rw [hsb, ratShift_denom, isIntRoot_polyShift] at hroot
    have hmem : z + getShift p ∈ intRootsF p.b.denom :=
      mem_intRootsF.mpr ⟨RatFunc.denom_ne_zero p.b, hroot⟩
    have hne : (intRootsF p.b.denom).Nonempty := ⟨_, hmem⟩
    have hle := Finset.le_max' _ _ hmem
    rw [dif_pos hne] at hBle
    omega
  · intro z hz hroot
    rw [hsb, ratShift_num, isIntRoot_polyShift] at hroot
    have hmem : z + getShift p ∈ intRootsF p.b.num :=
      mem_intRootsF.mpr ⟨RatFunc.num_ne_zero hb, hroot⟩
    have hne : (intRootsF p.b.num).Nonempty := ⟨_, hmem⟩
    have hle := Finset.le_max' _ _ hmem
    rw [dif_pos hne] at hCle
    omega
  · intro t ht hviable
    obtain ⟨hv1, hv2, hv3⟩ := hviable
    show getShift p ≤ t
    have hA : (if h : (intRootsF p.a.denom).Nonempty
        then (intRootsF p.a.denom).max' h + 1 else 0) ≤ t := by
      by_cases h : (intRootsF p.a.denom).Nonempty
      · rw [dif_pos h]
        by_contra hlt
        have hmax := Finset.max'_mem _ h
        obtain ⟨_, hroot⟩ := mem_intRootsF.mp hmax
        exact hv1 _ (by omega) hroot
      · rw [dif_neg h]; exact ht
    have hB : (if h : (intRootsF p.b.denom).Nonempty
        then (intRootsF p.b.denom).max' h else 0) ≤ t := by
      by_cases h : (intRootsF p.b.denom).Nonempty
      · rw [dif_pos h]
        by_contra hlt
        have hmax := Finset.max'_mem _ h
        obtain ⟨_, hroot⟩ := mem_intRootsF.mp hmax
        exact hv2 _ (by omega) hroot
      · rw [dif_neg h]; exact ht
    have hC : (if h : (intRootsF p.b.num).Nonempty
        then (intRootsF p.b.num).max' h else 0) ≤ t := by
      by_cases h : (intRootsF p.b.num).Nonempty
      · rw [dif_pos h]
        by_contra hlt
        have hmax := Finset.max'_mem _ h
        obtain ⟨_, hroot⟩ := mem_intRootsF.mp hmax
        exact hv3 _ (by omega) hroot
      · rw [dif_neg h]; exact ht
    exact max_le (max_le hA hB) hC

theorem intRootsF_X_sub_intCast (r : ℤ) :
    intRootsF (Polynomial.X - Polynomial.C (r : ℚ)) = {r} := by
  unfold intRootsF
  rw [Polynomial.roots_X_sub_C, Multiset.toFinset_singleton, Finset.filter_singleton,
    if_pos (Rat.den_intCast r), Finset.image_singleton, Rat.num_intCast]

theorem intRootsF_one : intRootsF (1 : Polynomial ℚ) = ∅ := by
  unfold intRootsF
  rw [Polynomial.roots_one]
  rfl

noncomputable def pcfViableEx : QPCF ℚ :=
  mkPCF ((algebraMap (Polynomial ℚ) (RatFunc ℚ) (Polynomial.X - Polynomial.C (-3)))⁻¹)
    (algebraMap (Polynomial ℚ) (RatFunc ℚ) (Polynomial.X - Polynomial.C (-2)) /
      algebraMap (Polynomial ℚ) (RatFunc ℚ) (Polynomial.X - Polynomial.C (-4))) 1

noncomputable def pcfShiftEx : QPCF ℚ :=
  mkPCF 1 (algebraMap (Polynomial ℚ) (RatFunc ℚ) (Polynomial.X - Polynomial.C 1)) 1

theorem pcfViableEx_aden : pcfViableEx.a.denom = Polynomial.X - Polynomial.C (-3) := by
  show ((algebraMap (Polynomial ℚ) (RatFunc ℚ) (Polynomial.X - Polynomial.C (-3)))⁻¹).denom = _
  exact denom_inv_monic (Polynomial.monic_X_sub_C (-3))

theorem pcfViableEx_bnum_bden :
    pcfViableEx.b.num = Polynomial.X - Polynomial.C (-2) ∧
    pcfViableEx.b.denom = Polynomial.X - Polynomial.C (-4) := by
  have hcop : IsCoprime (Polynomial.X - Polynomial.C (-2 : ℚ))
      (Polynomial.X - Polynomial.C (-4 : ℚ)) := by
    refine Polynomial.isCoprime_X_sub_C_of_isUnit_sub ?_
    rw [show ((-2 : ℚ) - (-4 : ℚ)) = 2 by norm_num]
    exact isUnit_iff_ne_zero.mpr (by norm_num)
  exact num_denom_div_of_monic_coprime (Polynomial.monic_X_sub_C (-4)) hcop

theorem pcfViableEx_anum : pcfViableEx.a.num = 1 := by
  show ((algebraMap (Polynomial ℚ) (RatFunc ℚ) (Polynomial.X - Polynomial.C (-3)))⁻¹).num = _
  exact num_inv_monic (Polynomial.monic_X_sub_C (-3))

theorem getShift_pcfViableEx : getShift pcfViableEx = -2 := by
  unfold getShift
  rw [pcfViableEx_aden, pcfViableEx_bnum_bden.1, pcfViableEx_bnum_bden.2]
  rw [show (Polynomial.X - Polynomial.C (-3 : ℚ)) =
      Polynomial.X - Polynomial.C ((-3 : ℤ) : ℚ) by norm_num,
    show (Polynomial.X - Polynomial.C (-2 : ℚ)) =
      Polynomial.X - Polynomial.C ((-2 : ℤ) : ℚ) by norm_num,
    show (Polynomial.X - Polynomial.C (-4 : ℚ)) =
      Polynomial.X - Polynomial.C ((-4 : ℤ) : ℚ) by norm_num]
  rw [intRootsF_X_sub_intCast, intRootsF_X_sub_intCast, intRootsF_X_sub_intCast]
  dsimp only
  rw [dif_pos (Finset.singleton_nonempty _), dif_pos (Finset.singleton_nonempty _),
    dif_pos (Finset.singleton_nonempty _)]
  rw [Finset.max'_singleton, Finset.max'_singleton, Finset.max'_singleton]
  decide

theorem getShift_pcfShiftEx : getShift pcfShiftEx = 1 := by
  unfold getShift
  have hbn : pcfShiftEx.b.num = Polynomial.X - Polynomial.C 1 := by
    show (algebraMap (Polynomial ℚ) (RatFunc ℚ) (Polynomial.X - Polynomial.C 1)).num = _
    exact RatFunc.num_algebraMap _
  have hbd : pcfShiftEx.b.denom = 1 := by
    show (algebraMap (Polynomial ℚ) (RatFunc ℚ) (Polynomial.X - Polynomial.C 1)).denom = _
    exact RatFunc.denom_algebraMap _
  have had : pcfShiftEx.a.denom = 1 := by
    show (1 : RatFunc ℚ).denom = 1
    exact RatFunc.denom_one
  rw [hbn, hbd, had, intRootsF_one]
  rw [show (Polynomial.X - Polynomial.C (1 : ℚ)) =
      Polynomial.X - Polynomial.C ((1 : ℤ) : ℚ) by norm_num]
  rw [intRootsF_X_sub_intCast]
  dsimp only
  rw [dif_neg (by simp), dif_neg (by simp), dif_pos (Finset.singleton_nonempty _)]
  rw [Finset.max'_singleton]
  decide

/-- C4 counterexample: `PCF(1/(n+3), (n+2)/(n+4))` is already viable, yet
`shift_to_viable` returns shift `-2` (not `0`, not even nonnegative); and for
`PCF(1, n-1)` the returned shift is `1` and the shifted `b`-numerator still
has the integer root `0`, a non-negative index. -/
theorem C4_viable_shift_counterexample :
    (ViableShift pcfViableEx 0 ∧ (shiftToViable pcfViableEx).2 = -2) ∧
    ((shiftToViable pcfShiftEx).2 = 1 ∧
      isIntRoot ((shiftToViable pcfShiftEx).1.b.num) 0) := by
  refine ⟨⟨⟨?_, ?_, ?_⟩, getShift_pcfViableEx⟩, getShift_pcfShiftEx, ?_⟩
  · intro z hz hroot
    rw [pcfViableEx_aden] at hroot
    simp only [isIntRoot, Polynomial.eval_sub, Polynomial.eval_X, Polynomial.eval_C,
      sub_neg_eq_add] at hroot
    have : z = -3 := by exact_mod_cast eq_neg_of_add_eq_zero_left hroot
    omega
  · intro z hz hroot
    rw [pcfViableEx_bnum_bden.2] at hroot
    simp only [isIntRoot, Polynomial.eval_sub, Polynomial.eval_X, Polynomial.eval_C,
      sub_neg_eq_add] at hroot
    have : z = -4 := by exact_mod_cast eq_neg_of_add_eq_zero_left hroot
    omega
  · intro z hz hroot
    rw [pcfViableEx_bnum_bden.1] at hroot
    simp only [isIntRoot, Polynomial.eval_sub, Polynomial.eval_X, Polynomial.eval_C,
      sub_neg_eq_add] at hroot
    have : z = -2 := by exact_mod_cast eq_neg_of_add_eq_zero_left hroot
    omega
  · have hsb : (shiftToViable pcfShiftEx).1.b =
        ratShift ((getShift pcfShiftEx : ℤ) : ℚ) pcfShiftEx.b := rfl
    have hn : pcfShiftEx.b.num = Polynomial.X - Polynomial.C 1 := by
      show (algebraMap (Polynomial ℚ) (RatFunc ℚ) (Polynomial.X - Polynomial.C 1)).num = _
      exact RatFunc.num_algebraMap _
    rw [hsb, getShift_pcfShiftEx, ratShift_num, hn]
    show (polyShift ((1 : ℤ) : ℚ) (Polynomial.X - Polynomial.C 1)).eval ((0 : ℤ) : ℚ) = 0
    rw [polyShift_apply]
    simp

theorem C4_shift_to_viable_witness :
    (1 : RatFunc ℚ) ≠ 0 ∧
    ((∀ z : ℤ, 0 ≤ z →
        ¬ isIntRoot ((shiftToViable (mkPCF 1 1 1 : QPCF ℚ)).1.a.denom) z) ∧
      (∀ z : ℤ, 1 ≤ z →
        ¬ isIntRoot ((shiftToViable (mkPCF 1 1 1 : QPCF ℚ)).1.b.denom) z) ∧
      (∀ z : ℤ, 1 ≤ z →
        ¬ isIntRoot ((shiftToViable (mkPCF 1 1 1 : QPCF ℚ)).1.b.num) z) ∧
      (∀ t : ℤ, 0 ≤ t → ViableShift (mkPCF 1 1 1 : QPCF ℚ) t →
        (shiftToViable (mkPCF 1 1 1 : QPCF ℚ)).2 ≤ t)) :=
  ⟨one_ne_zero, C4_shift_to_viable (mkPCF 1 1 1) one_ne_zero⟩

-- ===== C6 development =====

/-- 2×2 matrices with entries in `R`, as sympy's `sp.Matrix([[a, b], [c, d]])`;
`mobius` and `as_pcf` unpack the cells row-major into `a, b, c, d`. -/
structure Mat2 (R : Type) where
  a : R
  b : R
  c : R
  d : R

instance [Mul R] [Add R] : Mul (Mat2 R) :=
  ⟨fun x y => ⟨x.a * y.a + x.b * y.c, x.a * y.b + x.b * y.d,
    x.c * y.a + x.d * y.c, x.c * y.b + x.d * y.d⟩⟩

theorem Mat2.mul_def {R : Type} [Mul R] [Add R] (x y : Mat2 R) :
    x * y = ⟨x.a * y.a + x.b * y.c, x.a * y.b + x.b * y.d,
      x.c * y.a + x.d * y.c, x.c * y.b + x.d * y.d⟩ := rfl

def Mat2.map {R S : Type} (f : R → S) (m : Mat2 R) : Mat2 S :=
  ⟨f m.a, f m.b, f m.c, f m.d⟩

/-- sympy's `Matrix.det()` for a 2×2 matrix. -/
def Mat2.det {R : Type} [Mul R] [Sub R] (m : Mat2 R) : R := m.a * m.d - m.b * m.c

/-- sympy's `Matrix.inv()` for a 2×2 matrix over `ℚ` (adjugate over
determinant). -/
def Mat2.inv (m : Mat2 ℚ) : Mat2 ℚ :=
  ⟨m.d / m.det, -m.b / m.det, -m.c / m.det, m.a / m.det⟩

theorem Mat2.det_mul {R : Type} [CommRing R] (x y : Mat2 R) :
    (x * y).det = x.det * y.det := by
  simp only [Mat2.mul_def, Mat2.det]
  ring

theorem Mat2.det_map_eval (m : Mat2 (Polynomial ℚ)) (t : ℚ) :
    (m.map (fun q => q.eval t)).det = m.det.eval t := by
  simp [Mat2.map, Mat2.det]

/-- `mobius(matrix, z)` from `src/unifier/utils/recurrence_transforms_utils.py`
lines 9–13: `(a*z + b) / (c*z + d)`. -/
def mobius (m : Mat2 ℚ) (z : ℚ) : ℚ := (m.a * z + m.b) / (m.c * z + m.d)

/-- The PCF recurrence matrix `[[0, b], [1, a]]` (`PCF.CM()`,
`src/unifier/pcf.py` lines 65–71), for a polynomial PCF, standing for the
`pcf.M()` recurrence-matrix accessor that `get_folded_pcf_limit` (line 113)
calls (the accessor itself is not in the vendored sources). -/
noncomputable def pcfCM (a b : Polynomial K) : Mat2 (Polynomial K) := ⟨0, b, 1, a⟩

/-- `fold_matrix(mat, factor)` lines 38–42: the product over `i < factor` of
`mat.subs({n: factor*n - (factor - 1 - i)})`, left to right, starting from
the identity. -/
noncomputable def foldMatrix (m : Mat2 (Polynomial K)) (factor : ℕ) : Mat2 (Polynomial K) :=
  (List.range factor).foldl
    (fun acc (i : ℕ) => acc * m.map (fun q =>
      q.comp (Polynomial.C (factor : K) * Polynomial.X -
        Polynomial.C ((factor : K) - 1 - (i : K)))))
    ⟨1, 0, 0, 1⟩

/-- `inflate_to_polynomial(pcf, defalte_all)` lines 16–32, first component:
inflate by the LCM of the denominators of `a` and `b`, then `deflate_all`
when the flag is set. -/
noncomputable def inflateToPolynomial (p : QPCF K) (deflate : Bool) : QPCF K :=
  let p1 := p.inflate (algebraMap _ _ (denLcm p.a p.b))
  if deflate then p1.deflateAll else p1

/-- `as_pcf(matrix, deflate_all)` lines 48–58:
`PCF(c*a(n+1) + d*c(n+1), (b*c - a*d)*c(n-1)*c(n+1))`, made polynomial by
`inflate_to_polynomial`, then `deflate_all()` once more when the flag is
set. -/
noncomputable def asPcf (m : Mat2 (Polynomial K)) (deflate : Bool) : QPCF K :=
  let p := mkPCF
    (algebraMap _ _ (m.c * polyShift 1 m.a + m.d * polyShift 1 m.c))
    (algebraMap _ _ ((m.b * m.c - m.a * m.d) * polyShift (-1) m.c * polyShift 1 m.c))
    1
  let p1 := inflateToPolynomial p deflate
  if deflate then p1.deflateAll else p1

/-- `as_pcf_eta(matrix, deflate_all)` lines 71–80: the content of the
undeflated `as_pcf` result when the flag is set, else `1`. -/
noncomputable def asPcfEta (m : Mat2 (Polynomial K)) (deflate : Bool) : Polynomial K :=
  if deflate then content (asPcf m false).a.num (asPcf m false).b.num else 1

/-- `as_pcf_cob(matrix, deflate_all)` lines 61–68:
`[[1, a], [0, c]] * [[eta(n-1), 0], [0, 1]] * [[1, 0], [0, c(n-1)]]`. -/
noncomputable def asPcfCob (m : Mat2 (Polynomial K)) (deflate : Bool) : Mat2 (Polynomial K) :=
  (⟨1, m.a, 0, m.c⟩ : Mat2 (Polynomial K)) *
    (⟨polyShift (-1) (asPcfEta m deflate), 0, 0, 1⟩ : Mat2 (Polynomial K)) *
    (⟨1, 0, 0, polyShift (-1) m.c⟩ : Mat2 (Polynomial K))

/-- `PCF.A()` (`src/unifier/pcf.py` lines 73–79): the initial-conditions
matrix `[[1, a(0)], [0, 1]]`, with `a.subs({n: 0})` read off the canonical
numerator and denominator. -/
noncomputable def QPCF.Amat (p : QPCF ℚ) : Mat2 ℚ :=
  ⟨1, RatFunc.eval (RingHom.id ℚ) 0 p.a, 0, 1⟩

/-- The distinct exception class `SingularCoboundaryMatrixError`
(`src/unifier/utils/recurrence_transforms_utils.py` lines 91–92). -/
inductive TransformError where
  | singularCoboundaryMatrix
deriving DecidableEq, Repr

/-- `get_folded_pcf_limit(pcf, factor, limit, deflate_all)` lines 109–118 for
a polynomial input PCF `(a, b)`: fold the recurrence matrix, convert to a PCF
and a coboundary matrix `U`, raise `SingularCoboundaryMatrixError` when
`U.subs({n: 1}).det() == 0`, else return
`mobius(foldedpcf.A() * U(1).inv() * pcf.A().inv(), limit)`. -/
noncomputable def getFoldedPcfLimit (a b : Polynomial ℚ) (factor : ℕ) (limit : ℚ)
    (deflate : Bool) : Except TransformError ℚ :=
  let foldedmat := foldMatrix (pcfCM a b) factor
  let foldedpcf := asPcf foldedmat deflate
  let U := asPcfCob foldedmat deflate
  let U1 := U.map (fun q => q.eval 1)
  if U1.det = 0 then Except.error TransformError.singularCoboundaryMatrix
  else Except.ok (mobius (foldedpcf.Amat * U1.inv *
    (mkPCF (algebraMap _ _ a) (algebraMap _ _ b) 1).Amat.inv) limit)

/-- C6: `get_folded_pcf_limit` raises its distinct
`SingularCoboundaryMatrixError` exactly when the coboundary matrix `U`
evaluated at `n = 1` has determinant `0` (a single evaluation, no retry),
and otherwise returns the Mobius transform of the limit by
`foldedpcf.A() * U(1)⁻¹ * pcf.A()⁻¹`; both branches are reachable. -/
theorem C6_singular_coboundary_guard :
    (∀ (a b : Polynomial ℚ) (factor : ℕ) (limit : ℚ) (deflate : Bool),
      (getFoldedPcfLimit a b factor limit deflate =
          Except.error TransformError.singularCoboundaryMatrix ↔
        ((asPcfCob (foldMatrix (pcfCM a b) factor) deflate).map
          (fun q => q.eval 1)).det = 0) ∧
      (((asPcfCob (foldMatrix (pcfCM a b) factor) deflate).map
          (fun q => q.eval 1)).det ≠ 0 →
        getFoldedPcfLimit a b factor limit deflate =
          Except.ok (mobius ((asPcf (foldMatrix (pcfCM a b) factor) deflate).Amat *
            ((asPcfCob (foldMatrix (pcfCM a b) factor) deflate).map
              (fun q => q.eval 1)).inv *
            (mkPCF (algebraMap (Polynomial ℚ) (RatFunc ℚ) a)
              (algebraMap (Polynomial ℚ) (RatFunc ℚ) b) 1).Amat.inv) limit))) ∧
    getFoldedPcfLimit 1 1 0 0 false =
      Except.error TransformError.singularCoboundaryMatrix ∧
    (∃ v : ℚ, getFoldedPcfLimit 0 0 1 0 false = Except.ok v) := by
  refine ⟨?_, ?_, ?_⟩
  · intro a b factor limit deflate
    constructor
    · unfold getFoldedPcfLimit
      dsimp only
      by_cases h : ((asPcfCob (foldMatrix (pcfCM a b) factor) deflate).map
          (fun q => q.eval 1)).det = 0
      · rw [if_pos h]
        simp [h]
      · rw [if_neg h]
        simp [h]
    · intro h
      unfold getFoldedPcfLimit
      dsimp only
      rw [if_neg h]
  · have hfold : foldMatrix (pcfCM (1 : Polynomial ℚ) 1) 0 = ⟨1, 0, 0, 1⟩ := rfl
    have hdet : ((asPcfCob (foldMatrix (pcfCM (1 : Polynomial ℚ) 1) 0) false).map
        (fun q => q.eval 1)).det = 0 := by
      rw [Mat2.det_map_eval, hfold]
      unfold asPcfCob
      rw [Mat2.det_mul, Mat2.det_mul]
      simp [Mat2.det]
    unfold getFoldedPcfLimit
    dsimp only
    rw [if_pos hdet]
  · have hFc : (foldMatrix (pcfCM (0 : Polynomial ℚ) 0) 1).c = 1 := by
      unfold foldMatrix
      rw [show List.range 1 = [0] from rfl]
      rw [List.foldl_cons, List.foldl_nil, Mat2.mul_def]
      simp [Mat2.map, pcfCM, Polynomial.one_comp]
    have hdet : ((asPcfCob (foldMatrix (pcfCM (0 : Polynomial ℚ) 0) 1) false).map
        (fun q => q.eval 1)).det ≠ 0 := by
      rw [Mat2.det_map_eval]
      unfold asPcfCob
      rw [Mat2.det_mul, Mat2.det_mul]
      have heta : asPcfEta (foldMatrix (pcfCM (0 : Polynomial ℚ) 0) 1) false = 1 := rfl
      simp [Mat2.det, hFc, heta]
    have hres : getFoldedPcfLimit 0 0 1 0 false =
        Except.ok (mobius ((asPcf (foldMatrix (pcfCM 0 0) 1) false).Amat *
          ((asPcfCob (foldMatrix (pcfCM 0 0) 1) false).map (fun q => q.eval 1)).inv *
          (mkPCF (algebraMap (Polynomial ℚ) (RatFunc ℚ) 0)
            (algebraMap (Polynomial ℚ) (RatFunc ℚ) 0) 1).Amat.inv) 0) := by
      unfold getFoldedPcfLimit
      dsimp only
      rw [if_neg hdet]
    exact ⟨_, hres⟩

end RatFuncPCF

end Unifier
